import Mathlib

/-!
The PNG chunk container of png-tweak: parse, set pHYs, dump.

A shallow embedding of `src/png.go` (with `src/image.go` and `src/phys.go`,
whose `Parse`, `SetPhysChunk` and `GenerateChunk` are the same text), of the
`dump` of `src/image.go` (namespace `ImageGo`) and of the resolution conversion
of `src/main.go`.

Conventions of the embedding:

* a byte is a `Fin 256`; a `uint32` is a `Nat` and every `uint32` addition is
  written with its `% 2 ^ 32`;
* Go's `int` has 32 or 64 bits depending on the platform: the width `w` is a
  parameter of `Parse`, and `toInt w` is the conversion `int(x)`;
* a Go `[]byte` is a `Slice`: its `len` elements, and the bytes of its backing
  array that lie between `len` and `cap` (a slice expression `s[0:4]` is
  bounded by `cap(s)`, not by `len(s)`);
* a call either returns or panics: `Go α`;
* `container/list` is a `List`.
-/

namespace PngTweak

/-! ## Run-time values -/

abbrev Byte := Fin 256

/-- The Go conversion `byte(x)` of an unsigned integer: the low eight bits. -/
def byte (x : Nat) : Byte := ⟨x % 256, Nat.mod_lt x (by decide)⟩

/-- A Go `[]byte`: `elems` are the `len(s)` elements, `spare` the bytes of the
backing array from index `len(s)` up to `cap(s)`. -/
structure Slice where
  elems : List Byte
  spare : List Byte
deriving DecidableEq

def Slice.len (s : Slice) : Nat := s.elems.length

def Slice.cap (s : Slice) : Nat := s.elems.length + s.spare.length

/-- Outcome of running a Go function: it returns a value, or it panics.
`fuel` is the third outcome of the model only: the recursion bound of a loop
was used up (`Parse_total` shows that `Parse` never ends so). -/
inductive Go (α : Type) where
  | ret : α → Go α
  | panic : String → Go α
  | fuel : Go α
deriving DecidableEq

instance {ε α : Type} [DecidableEq ε] [DecidableEq α] : DecidableEq (Except ε α)
  | .ok a, .ok b => if h : a = b then isTrue (by rw [h]) else isFalse (fun e => h (by cases e; rfl))
  | .error a, .error b =>
      if h : a = b then isTrue (by rw [h]) else isFalse (fun e => h (by cases e; rfl))
  | .ok _, .error _ => isFalse (fun e => by cases e)
  | .error _, .ok _ => isFalse (fun e => by cases e)

/-- Go's `int(x)` for an unsigned `x`, on a platform whose `int` has `w` bits
(two's complement). -/
def toInt (w : Nat) (x : Nat) : Int :=
  if x % 2 ^ w < 2 ^ (w - 1) then ((x % 2 ^ w : Nat) : Int)
  else ((x % 2 ^ w : Nat) : Int) - ((2 ^ w : Nat) : Int)

/-! ## encoding/binary -/

/-- The call `binary.BigEndian.Uint32(b)`: it indexes `b[3]` first, so it panics
on fewer than four bytes. The result
`uint32(b[3]) | uint32(b[2])<<8 | uint32(b[1])<<16 | uint32(b[0])<<24`. -/
def Uint32 (b : List Byte) : Go Nat :=
  match b with
  | b0 :: b1 :: b2 :: b3 :: _ =>
      .ret (b3.val ||| b2.val <<< 8 ||| b1.val <<< 16 ||| b0.val <<< 24)
  | _ => .panic "index out of range"

/-- The call `binary.BigEndian.PutUint32(u32, v)` on a four-byte `u32`: the
contents of `u32` afterwards. -/
def PutUint32 (v : Nat) : List Byte :=
  [byte (v >>> 24), byte (v >>> 16), byte (v >>> 8), byte v]

/-! ## hash/crc32 -/

/-- One bit of the reflected CRC-32 shift register, polynomial 0xEDB88320. -/
def crcBit (crc : Nat) : Nat :=
  if crc % 2 = 1 then (crc >>> 1) ^^^ 0xEDB88320 else crc >>> 1

def crcByte (crc : Nat) (b : Byte) : Nat :=
  crcBit (crcBit (crcBit (crcBit (crcBit (crcBit (crcBit (crcBit (crc ^^^ b.val))))))))

/-- The library function `crc32.ChecksumIEEE`: CRC-32 with the IEEE polynomial,
initial value and final xor 0xFFFFFFFF. -/
def ChecksumIEEE (data : List Byte) : Nat :=
  (data.foldl crcByte 0xFFFFFFFF) ^^^ 0xFFFFFFFF

/-! ## bytes.Buffer -/

/-- A `bytes.Buffer` made by `bytes.NewBuffer(data)`: `unread` is
`buf[off:len(buf)]`, `spare` the rest of the backing array up to `cap(buf)`. -/
structure Buffer where
  unread : List Byte
  spare : List Byte
deriving DecidableEq

def NewBuffer (data : Slice) : Buffer := ⟨data.elems, data.spare⟩

def Buffer.Len (b : Buffer) : Nat := b.unread.length

/-- The method `Buffer.Next(n)`: `n` is cut down to `Len()`, the result is the
two-index slice `buf[off : off+n]` (so its capacity runs to the end of the
backing array) and the read offset moves by `n`. A negative `n` fails the slice
bounds. -/
def Buffer.Next (b : Buffer) (n : Int) : Go (Slice × Buffer) :=
  let n := if n > (b.Len : Int) then (b.Len : Int) else n
  if n < 0 then .panic "slice bounds out of range"
  else .ret (⟨b.unread.take n.toNat, b.unread.drop n.toNat ++ b.spare⟩,
             ⟨b.unread.drop n.toNat, b.spare⟩)

/-! ## png.go -/

def Signature : List Byte := [0x89, 0x50, 0x4e, 0x47, 0x0d, 0x0a, 0x1a, 0x0a]

structure Chunk where
  Length : Nat
  Data : Slice
  Crc : Nat
deriving DecidableEq

/-- The method `Chunk.Type`: `string(self.Data[0:4])`. The slice expression
panics when `cap(Data) < 4`; when `len(Data) < 4 ≤ cap(Data)` it reads on into
the backing array. A Go string is its bytes. -/
def Chunk.Type (self : Chunk) : Go (List Byte) :=
  if 4 ≤ self.Data.cap then .ret ((self.Data.elems ++ self.Data.spare).take 4)
  else .panic "slice bounds out of range"

/-- The string "IEND". -/
def IEND : List Byte := [0x49, 0x45, 0x4e, 0x44]

/-- The string "pHYs". -/
def pHYs : List Byte := [0x70, 0x48, 0x59, 0x73]

/-- The string "IDAT". -/
def IDAT : List Byte := [0x49, 0x44, 0x41, 0x54]

structure PhysChunk where
  X : Nat
  Y : Nat
  Unit : Byte
deriving DecidableEq

/-- The method `PhysChunk.GenerateChunk`. The capacity of the slice that
`Buffer.Bytes` hands out is not specified; `Data` holds thirteen bytes, so no
read of the program reaches past its length, and the model records no spare
bytes for it. -/
def GenerateChunk (self : PhysChunk) : Chunk :=
  let data := pHYs ++ PutUint32 self.X ++ PutUint32 self.Y ++ [self.Unit]
  ⟨9, ⟨data, []⟩, ChecksumIEEE data⟩

structure Image where
  ChunkList : List Chunk
  Trailer : Slice
deriving DecidableEq

/-- The `for` loop of `Parse`, one iteration per unit of `fuel`; `chunkList` is
the list built so far. It returns the list and the buffer at the `break`, or the
error that `Parse` returns. -/
def parseLoop (w : Nat) : Nat → Buffer → List Chunk → Go (Except String (List Chunk × Buffer))
  | 0, _, _ => .fuel
  | fuel + 1, buf, chunkList =>
    match buf.Next 4 with
    | .panic m => .panic m
    | .fuel => .fuel
    | .ret (u32, buf) =>
      if u32.len = 0 then .ret (.ok (chunkList, buf))
      else if u32.len ≠ 4 then .ret (.error "Broken structure of chunk")
      else
        match Uint32 u32.elems with
        | .panic m => .panic m
        | .fuel => .fuel
        | .ret length =>
          if toInt w length < 0 ∨ toInt w ((length + 8) % 2 ^ 32) < 0
              ∨ (buf.Len : Int) < toInt w ((length + 8) % 2 ^ 32) then
            .ret (.error "Broken structure of chunk")
          else
            match buf.Next (toInt w ((length + 4) % 2 ^ 32)) with
            | .panic m => .panic m
            | .fuel => .fuel
            | .ret (data, buf) =>
              match buf.Next 4 with
              | .panic m => .panic m
              | .fuel => .fuel
              | .ret (c, buf) =>
                match Uint32 c.elems with
                | .panic m => .panic m
                | .fuel => .fuel
                | .ret crc =>
                  let chunk : Chunk := ⟨length, data, crc⟩
                  let chunkList := chunkList ++ [chunk]
                  match chunk.Type with
                  | .panic m => .panic m
                  | .fuel => .fuel
                  | .ret t =>
                    if t = IEND then .ret (.ok (chunkList, buf))
                    else parseLoop w fuel buf chunkList

/-- The function `Parse`, on a platform whose `int` has `w` bits. Every
iteration of the loop that does not leave it reads at least four bytes, so
`len(data)` iterations and one more are enough. -/
def Parse (w : Nat) (data : Slice) : Go (Except String Image) :=
  let buf := NewBuffer data
  match buf.Next 8 with
  | .panic m => .panic m
  | .fuel => .fuel
  | .ret (sig, buf) =>
    if sig.elems ≠ Signature then .ret (.error "Incorrect signature")
    else
      match parseLoop w (data.len + 1) buf [] with
      | .panic m => .panic m
      | .fuel => .fuel
      | .ret (.error e) => .ret (.error e)
      | .ret (.ok (chunkList, buf)) =>
        match buf.Next (buf.Len : Int) with
        | .panic m => .panic m
        | .fuel => .fuel
        | .ret (trailer, _) => .ret (.ok ⟨chunkList, trailer⟩)

/-- An `io.Writer` with state `σ`: `Write` gives the state afterwards, the
count `n` and the error (`none` is `nil`). -/
structure Writer (σ : Type) where
  Write : σ → List Byte → σ × Nat × Option String

/-- The function `createWriteError`; `io.ErrShortWrite` is the error
"short write". -/
def createWriteError (err : Option String) : String :=
  match err with
  | none => "short write"
  | some e => e

/-- The chunk loop of `dump` (png.go): `none` when the loop runs to its end. -/
def dumpChunks {σ : Type} (W : Writer σ) : σ → List Chunk → σ × Option String
  | s, [] => (s, none)
  | s, chunk :: rest =>
    let u32 := PutUint32 chunk.Length
    match W.Write s u32 with
    | (s, n, err) =>
      if n ≠ u32.length ∨ err ≠ none then (s, some (createWriteError err))
      else
        match W.Write s chunk.Data.elems with
        | (s, n, err) =>
          if n ≠ chunk.Data.len ∨ err ≠ none then (s, some (createWriteError err))
          else
            let u32 := PutUint32 chunk.Crc
            match W.Write s u32 with
            | (s, n, err) =>
              if n ≠ u32.length ∨ err ≠ none then (s, some (createWriteError err))
              else dumpChunks W s rest

/-- The method `Image.dump` of png.go: the writer afterwards and the returned
error. -/
def dump {σ : Type} (W : Writer σ) (s : σ) (self : Image) : σ × Option String :=
  match W.Write s Signature with
  | (s, n, err) =>
    if n ≠ Signature.length ∨ err ≠ none then (s, some (createWriteError err))
    else
      match dumpChunks W s self.ChunkList with
      | (s, some e) => (s, some e)
      | (s, none) =>
        match W.Write s self.Trailer.elems with
        | (s, n, err) =>
          if n ≠ self.Trailer.len ∨ err ≠ none then (s, some (createWriteError err))
          else (s, none)

/-- A `bytes.Buffer` as the writer: `Write` appends all of `p` and returns
`len(p), nil`. -/
def bufferWriter : Writer (List Byte) where
  Write := fun s p => (s ++ p, p.length, none)

/-- The method `Image.Dump`. -/
def Dump (self : Image) : Except String (List Byte) :=
  match dump bufferWriter [] self with
  | (_, some e) => .error e
  | (buf, none) => .ok buf

/-- First index, counted from `i`, of a chunk whose `Type()` equals `tag`: the
scan `for e := Front(); e != nil; e = e.Next()` up to its `return`. -/
def findType (tag : List Byte) : List Chunk → Nat → Go (Option Nat)
  | [], _ => .ret none
  | chunk :: rest, i =>
    match chunk.Type with
    | .panic m => .panic m
    | .fuel => .fuel
    | .ret t => if t = tag then .ret (some i) else findType tag rest (i + 1)

/-- The list after `InsertBefore(v, e)` for the element `e` at index `i`. -/
def InsertBefore (l : List Chunk) (v : Chunk) (i : Nat) : List Chunk := l.insertIdx i v

/-- The list after `Remove(e)` for the element `e` at index `i`. -/
def Remove (l : List Chunk) (i : Nat) : List Chunk := l.eraseIdx i

/-- The method `Image.SetPhysChunk`: the image afterwards and the returned error
(`none` is `nil`). After `InsertBefore(physChunk, e)` the element `e` sits one
index further. -/
def SetPhysChunk (self : Image) (phys : PhysChunk) : Go (Image × Option String) :=
  let physChunk := GenerateChunk phys
  match findType pHYs self.ChunkList 0 with
  | .panic m => .panic m
  | .fuel => .fuel
  | .ret (some i) =>
    .ret (⟨Remove (InsertBefore self.ChunkList physChunk i) (i + 1), self.Trailer⟩, none)
  | .ret none =>
    match findType IDAT self.ChunkList 0 with
    | .panic m => .panic m
    | .fuel => .fuel
    | .ret (some i) => .ret (⟨InsertBefore self.ChunkList physChunk i, self.Trailer⟩, none)
    | .ret none => .ret (self, some "IDAT chunk not found")

/-! ## Vocabulary of the properties -/

/-- The on-disk encoding of a chunk: length, data, crc. -/
def enc (c : Chunk) : List Byte := PutUint32 c.Length ++ c.Data.elems ++ PutUint32 c.Crc

def encs (cs : List Chunk) : List Byte := (cs.map enc).flatten

/-- Every chunk of the list has a type tag: `Type()` returns on it. This holds
when every `Data` has at least four bytes, as the chunk invariant
`len(Data) = Length + 4` makes it. -/
def Typed (l : List Chunk) : Prop := ∀ c ∈ l, ∃ t, c.Type = .ret t

/-- The chunk at index `i` of `l` has the type tag `tag`. -/
def TypeAt (l : List Chunk) (i : Nat) (tag : List Byte) : Prop :=
  (l[i]?).map Chunk.Type = some (.ret tag)

instance (l : List Chunk) (i : Nat) (tag : List Byte) : Decidable (TypeAt l i tag) := by
  unfold TypeAt
  infer_instance

/-- The first chunk of `l` with the type tag `tag` is at index `i`. -/
def FirstAt (l : List Chunk) (i : Nat) (tag : List Byte) : Prop :=
  TypeAt l i tag ∧ ∀ j, j < i → ¬ TypeAt l j tag

instance (l : List Chunk) (i : Nat) (tag : List Byte) : Decidable (FirstAt l i tag) := by
  unfold FirstAt
  infer_instance

/-- No chunk of `l` has the type tag `tag`. -/
def NoType (l : List Chunk) (tag : List Byte) : Prop := ∀ c ∈ l, c.Type ≠ .ret tag

instance (l : List Chunk) (tag : List Byte) : Decidable (NoType l tag) := by
  unfold NoType
  infer_instance

/-- Number of chunks of `l` whose type tag is `tag`. -/
def countType (tag : List Byte) (l : List Chunk) : Nat :=
  l.countP (fun c => decide (c.Type = .ret tag))

/-- The container that `Parse` returns on `data`, the empty one when it returns
none. -/
def parsed (w : Nat) (data : Slice) : Image :=
  match Parse w data with
  | .ret (.ok img) => img
  | _ => ⟨[], ⟨[], []⟩⟩

/-- The image that `SetPhysChunk` leaves behind, the empty one when it panics. -/
def afterSetPhys (img : Image) (phys : PhysChunk) : Image :=
  match SetPhysChunk img phys with
  | .ret (img', _) => img'
  | _ => ⟨[], ⟨[], []⟩⟩

/-! ## Sample data -/

/-- A slice with no spare capacity. -/
def bytesOf (l : List Byte) : Slice := ⟨l, []⟩

/-- An IHDR chunk on disk: 1 x 1 pixels, 8-bit greyscale. -/
def ihdrBytes : List Byte :=
  [0x00, 0x00, 0x00, 0x0d, 0x49, 0x48, 0x44, 0x52, 0x00, 0x00, 0x00, 0x01, 0x00, 0x00, 0x00, 0x01,
   0x08, 0x00, 0x00, 0x00, 0x00, 0x3a, 0x7e, 0x9b, 0x55]

/-- An IDAT chunk on disk, ten bytes of payload. -/
def idatBytes : List Byte :=
  [0x00, 0x00, 0x00, 0x0a, 0x49, 0x44, 0x41, 0x54, 0x78, 0xda, 0x63, 0x60, 0x00, 0x00, 0x00, 0x02,
   0x00, 0x01, 0xe5, 0x27, 0xde, 0xfc]

/-- The IEND chunk on disk. -/
def iendBytes : List Byte :=
  [0x00, 0x00, 0x00, 0x00, 0x49, 0x45, 0x4e, 0x44, 0xae, 0x42, 0x60, 0x82]

/-- A pHYs chunk on disk: 2835 x 2835 pixels per metre. -/
def physBytes : List Byte :=
  [0x00, 0x00, 0x00, 0x09, 0x70, 0x48, 0x59, 0x73, 0x00, 0x00, 0x0b, 0x13, 0x00, 0x00, 0x0b, 0x13,
   0x01, 0x00, 0x9a, 0x9c, 0x18]

/-- A pHYs chunk on disk: 3780 x 3780 pixels per metre. -/
def physBytes3780 : List Byte :=
  [0x00, 0x00, 0x00, 0x09, 0x70, 0x48, 0x59, 0x73, 0x00, 0x00, 0x0e, 0xc4, 0x00, 0x00, 0x0e, 0xc4,
   0x01, 0x95, 0x2b, 0x0e, 0x1b]

/-- A file IHDR, IDAT, IEND with two bytes after the IEND chunk. -/
def samplePNG : Slice := bytesOf (Signature ++ ihdrBytes ++ idatBytes ++ iendBytes ++ [0x0d, 0x0a])

/-- A file IHDR, pHYs, IDAT, IEND. -/
def samplePhysPNG : Slice :=
  bytesOf (Signature ++ ihdrBytes ++ physBytes3780 ++ idatBytes ++ iendBytes)

/-- A file IHDR, IEND. -/
def sampleNoIdatPNG : Slice := bytesOf (Signature ++ ihdrBytes ++ iendBytes)

/-- A file with two pHYs chunks: IHDR, pHYs, pHYs, IDAT, IEND. -/
def sampleTwoPhysPNG : Slice :=
  bytesOf (Signature ++ ihdrBytes ++ physBytes3780 ++ physBytes3780 ++ idatBytes ++ iendBytes)

/-- The density the spec's scenario passes: 2835 x 2835 pixels per metre. -/
def samplePhys : PhysChunk := ⟨2835, 2835, 1⟩

/-! ## The values the properties compare with -/

/-- Big-endian encoding of a 32-bit value in four bytes, most significant byte
first (the spec's words, by division). -/
def bigEndian32 (v : Nat) : List Byte :=
  [byte (v / 256 ^ 3), byte (v / 256 ^ 2), byte (v / 256), byte v]

/-- The ASCII bytes of "123456789", the standard check input of a CRC. -/
def crcCheckInput : List Byte := [0x31, 0x32, 0x33, 0x34, 0x35, 0x36, 0x37, 0x38, 0x39]

/-! ## main.go -/

/-- The conversion of `setResolution`:
`ppm := math.Floor((float64(ppi) / 0.0254) + 0.5)`, taken over the exact
rationals in place of `float64`. -/
def ppm (ppi : Nat) : Int := Int.floor (((ppi : ℚ) / (254 / 10000 : ℚ)) + (1 / 2 : ℚ))

/-! ## The sink as the properties see it -/

/-- One call of `Write` as the sink saw it: the bytes passed, and the count and
the error it returned. -/
structure WriteCall where
  p : List Byte
  n : Nat
  err : Option String
deriving DecidableEq

/-- The call wrote all the bytes it was given and reported no error. -/
def WriteCall.complete (c : WriteCall) : Prop := c.n = c.p.length ∧ c.err = none

instance (c : WriteCall) : Decidable c.complete := by
  unfold WriteCall.complete
  infer_instance

/-- The writer `W` together with the record of the calls made to it, in
order. -/
def logged {σ : Type} (W : Writer σ) : Writer (σ × List WriteCall) where
  Write := fun s p =>
    match W.Write s.1 p with
    | (s', n, err) => ((s', s.2 ++ [⟨p, n, err⟩]), n, err)

/-- A sink that takes at most `k` more bytes and never reports an error. -/
def shortSink : Writer (Nat × List Byte) where
  Write := fun s p => ((s.1 - p.length, s.2 ++ p.take s.1), min s.1 p.length, none)

/-! ## image.go -/

namespace ImageGo

/-- Modelled from the spec: the type `WriterWithError` of image.go and its method
`Write`, which are not among the sources. By the spec (4.4) any write failure, a
partial write or an error of the sink, is surfaced as an error and aborts the
remaining output, and a short write counts as an error even when the sink
reported none. So `Error` keeps the first failure, and once it is set `Write`
passes nothing on to the sink. -/
structure WriterWithError (σ : Type) where
  writer : σ
  Error : Option String

/-- Modelled from the spec: the method `WriterWithError.Write` (see
`WriterWithError`). -/
def WriterWithError.Write {σ : Type} (W : Writer σ) (self : WriterWithError σ)
    (p : List Byte) : WriterWithError σ :=
  match self.Error with
  | some e => ⟨self.writer, some e⟩
  | none =>
    match W.Write self.writer p with
    | (s, n, err) =>
      if n ≠ p.length ∨ err ≠ none then ⟨s, some (createWriteError err)⟩ else ⟨s, none⟩

/-- The chunk loop of `dump` (image.go). -/
def dumpChunks {σ : Type} (W : Writer σ) : WriterWithError σ → List Chunk → WriterWithError σ
  | writer, [] => writer
  | writer, chunk :: rest =>
    let writer := writer.Write W (PutUint32 chunk.Length)
    let writer := writer.Write W chunk.Data.elems
    let writer := writer.Write W (PutUint32 chunk.Crc)
    dumpChunks W writer rest

/-- The method `Image.dump` of image.go: the sink afterwards and the returned
`writer.Error`. -/
def dump {σ : Type} (W : Writer σ) (s : σ) (self : Image) : σ × Option String :=
  let writer : WriterWithError σ := ⟨s, none⟩
  let writer := writer.Write W Signature
  let writer := dumpChunks W writer self.ChunkList
  let writer := writer.Write W self.Trailer.elems
  (writer.writer, writer.Error)

end ImageGo

/-- What a record of calls and a returned error look like when the run stopped
at the first failed call: either no error and every call complete, or the last
call failed, every call before it was complete, and the error is
`createWriteError` of what that call reported. -/
def StopsAtFailure (calls : List WriteCall) (err : Option String) : Prop :=
  (err = none ∧ ∀ c ∈ calls, c.complete) ∨
  (∃ pre c, calls = pre ++ [c] ∧ (∀ x ∈ pre, x.complete) ∧ ¬ c.complete ∧
    err = some (createWriteError c.err))

/-! ## Chunks as the data model has them -/

/-- The chunk of the data model: `Data` is the type tag and `Length` bytes of
payload, so `len(Data) = Length + 4`, and `Length` and `Crc` are `uint32`. -/
def Chunk.WellFormed (c : Chunk) : Prop :=
  c.Data.len = c.Length + 4 ∧ c.Length < 2 ^ 32 ∧ c.Crc < 2 ^ 32

instance (c : Chunk) : Decidable c.WellFormed := by
  unfold Chunk.WellFormed
  infer_instance

/-- The type tag of a chunk: the first four bytes of `Data`. -/
def Chunk.tag (c : Chunk) : List Byte := c.Data.elems.take 4

/-- The values of a chunk: `Length`, the bytes of `Data`, `Crc`. -/
def Chunk.value (c : Chunk) : Nat × List Byte × Nat := (c.Length, c.Data.elems, c.Crc)

/-- The chunk `c` as a view into a buffer: the same values, with `after` the
bytes that follow `Data` in the backing array. -/
def Chunk.view (c : Chunk) (after : List Byte) : Chunk := ⟨c.Length, ⟨c.Data.elems, after⟩, c.Crc⟩

/-- The chunks `cs` as `Parse` makes them from their encodings followed by
`tail` (the rest of the backing array). -/
def views : List Chunk → List Byte → List Chunk
  | [], _ => []
  | c :: cs, tail => c.view (PutUint32 c.Crc ++ (encs cs ++ tail)) :: views cs tail

/-- The declared length `L` is one for which the additions of the bounds check
do not wrap and give a non-negative `int` of `w` bits. -/
def InRange (w L : Nat) : Prop := (w = 32 ∧ L + 8 < 2 ^ 31) ∨ (w = 64 ∧ L + 8 < 2 ^ 32)

instance (w L : Nat) : Decidable (InRange w L) := by
  unfold InRange
  infer_instance

/-! ## Chunks of four gibibytes -/

/-- A chunk with the declared length 0xFFFFFFFC: `Data` is the type tag followed
by the payload. -/
def hugeChunk (tag payload : List Byte) : Chunk := ⟨0xFFFFFFFC, bytesOf (tag ++ payload), 0⟩

/-- The IEND chunk whose encoding is `iendBytes`. -/
def iendChunk : Chunk := ⟨0, bytesOf IEND, 0xae426082⟩

/-- What the loop of `Parse` has checked of a chunk it appended, with `len` the
number of bytes that followed the length field: the bounds check let the
declared length through, `Data` took `int(length+4)` bytes or all the bytes when
there were fewer, and four more bytes were left for the crc. -/
def Parsed (w : Nat) (c : Chunk) : Prop :=
  ∃ len : Nat, c.Length < 2 ^ 32 ∧
    ¬ (toInt w c.Length < 0 ∨ toInt w ((c.Length + 8) % 2 ^ 32) < 0
        ∨ (len : Int) < toInt w ((c.Length + 8) % 2 ^ 32)) ∧
    0 ≤ toInt w ((c.Length + 4) % 2 ^ 32) ∧
    c.Data.len = min (toInt w ((c.Length + 4) % 2 ^ 32)).toNat len ∧
    c.Data.len + 4 ≤ len

/-- The IHDR chunk whose encoding is `ihdrBytes`. -/
def ihdrChunk : Chunk :=
  ⟨13, bytesOf [0x49, 0x48, 0x44, 0x52, 0x00, 0x00, 0x00, 0x01, 0x00, 0x00, 0x00, 0x01,
     0x08, 0x00, 0x00, 0x00, 0x00], 0x3a7e9b55⟩

/-- An IDAT chunk with two bytes of payload and a stored crc of 0, which is not
the CRC-32 of its data. -/
def badCrcChunk : Chunk := ⟨2, bytesOf (IDAT ++ [0x01, 0x02]), 0⟩

/-- A file whose IHDR chunk is followed by the length field FF FF FF FC and the
bytes "IEND". -/
def sampleWrapPNG : Slice :=
  bytesOf (Signature ++ ihdrBytes ++ [0xff, 0xff, 0xff, 0xfc] ++ IEND)

set_option maxRecDepth 100000

/-! ## Bytes and words -/

theorem word_eq_sum (b0 b1 b2 b3 : Byte) :
    b3.val ||| b2.val <<< 8 ||| b1.val <<< 16 ||| b0.val <<< 24
      = b0.val * 2 ^ 24 + b1.val * 2 ^ 16 + b2.val * 2 ^ 8 + b3.val := by
  have h0 := b0.isLt
  have h1 := b1.isLt
  have h2 := b2.isLt
  have h3 := b3.isLt
  have e1 : b3.val ||| b2.val <<< 8 = b2.val * 2 ^ 8 + b3.val := by
    rw [Nat.or_comm, Nat.shiftLeft_eq, Nat.mul_comm,
      ← Nat.mul_add_lt_is_or (by omega) b2.val]
  have e2 : (b2.val * 2 ^ 8 + b3.val) ||| b1.val <<< 16
      = b1.val * 2 ^ 16 + (b2.val * 2 ^ 8 + b3.val) := by
    rw [Nat.or_comm, Nat.shiftLeft_eq, Nat.mul_comm,
      ← Nat.mul_add_lt_is_or (by omega) b1.val]
  have e3 : (b1.val * 2 ^ 16 + (b2.val * 2 ^ 8 + b3.val)) ||| b0.val <<< 24
      = b0.val * 2 ^ 24 + (b1.val * 2 ^ 16 + (b2.val * 2 ^ 8 + b3.val)) := by
    rw [Nat.or_comm, Nat.shiftLeft_eq, Nat.mul_comm,
      ← Nat.mul_add_lt_is_or (by omega) b0.val]
  rw [e1, e2, e3]
  omega

theorem Uint32_cons (b0 b1 b2 b3 : Byte) (r : List Byte) :
    Uint32 (b0 :: b1 :: b2 :: b3 :: r)
      = .ret (b0.val * 2 ^ 24 + b1.val * 2 ^ 16 + b2.val * 2 ^ 8 + b3.val) := by
  simp only [Uint32, word_eq_sum]

theorem PutUint32_word (b0 b1 b2 b3 : Byte) :
    PutUint32 (b0.val * 2 ^ 24 + b1.val * 2 ^ 16 + b2.val * 2 ^ 8 + b3.val)
      = [b0, b1, b2, b3] := by
  have h0 := b0.isLt
  have h1 := b1.isLt
  have h2 := b2.isLt
  have h3 := b3.isLt
  simp only [PutUint32, byte, Nat.shiftRight_eq_div_pow]
  refine congrArg₂ _ (Fin.ext ?_) (congrArg₂ _ (Fin.ext ?_) (congrArg₂ _ (Fin.ext ?_)
    (congrArg₂ _ (Fin.ext ?_) rfl))) <;> simp only <;> omega

theorem PutUint32_length (v : Nat) : (PutUint32 v).length = 4 := rfl

/-- A successful `Uint32` read of exactly four bytes is undone by `PutUint32`. -/
theorem PutUint32_of_Uint32 (l : List Byte) (v : Nat) (hl : l.length = 4)
    (h : Uint32 l = .ret v) : PutUint32 v = l := by
  match l, hl with
  | [b0, b1, b2, b3], _ =>
    rw [Uint32_cons] at h
    cases h
    exact PutUint32_word b0 b1 b2 b3

theorem Uint32_lt (l : List Byte) (v : Nat) (h : Uint32 l = .ret v) : v < 2 ^ 32 := by
  match l with
  | [] | [_] | [_, _] | [_, _, _] => simp [Uint32] at h
  | b0 :: b1 :: b2 :: b3 :: r =>
    rw [Uint32_cons] at h
    cases h
    have h0 := b0.isLt
    have h1 := b1.isLt
    have h2 := b2.isLt
    have h3 := b3.isLt
    omega

theorem Uint32_of_length (l : List Byte) (hl : 4 ≤ l.length) : ∃ v, Uint32 l = .ret v := by
  match l, hl with
  | b0 :: b1 :: b2 :: b3 :: r, _ => exact ⟨_, Uint32_cons b0 b1 b2 b3 r⟩

theorem Uint32_short (l : List Byte) (hl : l.length < 4) :
    Uint32 l = .panic "index out of range" := by
  match l, hl with
  | [], _ | [_], _ | [_, _], _ | [_, _, _], _ => rfl

/-! ## The buffer -/

theorem Next_of_nonneg (b : Buffer) (n : Int) (hn : 0 ≤ n) :
    b.Next n = .ret (⟨b.unread.take n.toNat, b.unread.drop n.toNat ++ b.spare⟩,
                     ⟨b.unread.drop n.toNat, b.spare⟩) := by
  unfold Buffer.Next Buffer.Len
  by_cases h : n > (b.unread.length : Int)
  · have h1 : b.unread.length ≤ n.toNat := by omega
    simp only [h, if_true, Int.toNat_ofNat, List.take_of_length_le h1,
      List.drop_of_length_le h1, List.take_length, List.drop_length]
    simp
  · simp only [h, if_false]
    rw [if_neg (by omega)]

theorem Next_natCast (b : Buffer) (n : Nat) :
    b.Next (n : Int) = .ret (⟨b.unread.take n, b.unread.drop n ++ b.spare⟩,
                             ⟨b.unread.drop n, b.spare⟩) := by
  rw [Next_of_nonneg b n (Int.ofNat_nonneg n)]
  simp

theorem Next_four (b : Buffer) :
    b.Next 4 = .ret (⟨b.unread.take 4, b.unread.drop 4 ++ b.spare⟩,
                     ⟨b.unread.drop 4, b.spare⟩) := Next_natCast b 4

theorem Next_eight (b : Buffer) :
    b.Next 8 = .ret (⟨b.unread.take 8, b.unread.drop 8 ++ b.spare⟩,
                     ⟨b.unread.drop 8, b.spare⟩) := Next_natCast b 8

theorem Next_neg (b : Buffer) (n : Int) (hn : n < 0) :
    b.Next n = .panic "slice bounds out of range" := by
  unfold Buffer.Next Buffer.Len
  have h : ¬ n > (b.unread.length : Int) := by omega
  simp only [h, if_false, hn, if_true]

/-! ## The serializer on a `bytes.Buffer` -/

theorem encs_nil : encs [] = [] := rfl

theorem encs_cons (c : Chunk) (cs : List Chunk) : encs (c :: cs) = enc c ++ encs cs := rfl

theorem encs_append (xs ys : List Chunk) : encs (xs ++ ys) = encs xs ++ encs ys := by
  simp [encs]

theorem dumpChunks_buffer (s : List Byte) (l : List Chunk) :
    dumpChunks bufferWriter s l = (s ++ encs l, none) := by
  induction l generalizing s with
  | nil => simp [dumpChunks, encs]
  | cons c cs ih =>
    simp only [dumpChunks, bufferWriter, Slice.len, ne_eq, not_true_eq_false, or_self, if_false]
    have := ih (s ++ PutUint32 c.Length ++ c.Data.elems ++ PutUint32 c.Crc)
    simp only [bufferWriter] at this
    rw [this, encs_cons, enc]
    simp

theorem Dump_eq (img : Image) :
    Dump img = .ok (Signature ++ encs img.ChunkList ++ img.Trailer.elems) := by
  have h := dumpChunks_buffer Signature img.ChunkList
  simp only [bufferWriter] at h
  simp only [Dump, dump, bufferWriter, Slice.len, ne_eq, not_true_eq_false, or_self, if_false, h,
    List.nil_append]

/-! ## The parser loop -/

/-- One iteration of the loop of `Parse` that ends well: either the buffer was
empty, or the iteration read one chunk, byte for byte its encoding. -/
theorem parseLoop_succ_ok (w fuel : Nat) (buf buf' : Buffer) (acc cl : List Chunk)
    (h : parseLoop w (fuel + 1) buf acc = .ret (.ok (cl, buf'))) :
    (buf.unread = [] ∧ cl = acc ∧ buf' = buf) ∨
    ∃ chunk t rest, buf.unread = enc chunk ++ rest ∧ chunk.Type = .ret t ∧
      ((t = IEND ∧ cl = acc ++ [chunk] ∧ buf' = ⟨rest, buf.spare⟩) ∨
       (t ≠ IEND ∧ parseLoop w fuel ⟨rest, buf.spare⟩ (acc ++ [chunk]) = .ret (.ok (cl, buf')))) := by
  obtain ⟨unread, spare⟩ := buf
  rw [parseLoop, Next_four] at h
  simp only [Slice.len] at h
  by_cases h0 : (List.take 4 unread).length = 0
  · left
    simp only [h0, if_true, Go.ret.injEq, Except.ok.injEq, Prod.mk.injEq] at h
    have hu : unread = [] := by
      cases unread with
      | nil => rfl
      | cons a l => simp at h0
    subst hu
    exact ⟨rfl, h.1.symm, by rw [← h.2]; rfl⟩
  · right
    rw [if_neg h0] at h
    by_cases h4 : (List.take 4 unread).length = 4
    · rw [if_neg (by simpa using h4)] at h
      obtain ⟨length, hlen⟩ := Uint32_of_length (List.take 4 unread) (by omega)
      rw [hlen] at h
      dsimp only at h
      split at h
      · cases h
      · split at h
        · cases h
        · cases h
        · rename_i data buf1 hnext
          split at h
          · cases h
          · cases h
          · rename_i c buf2 hnext4
            rw [Next_four] at hnext4
            split at h
            · cases h
            · cases h
            · rename_i crc hcrc
              by_cases hneg : toInt w ((length + 4) % 2 ^ 32) < 0
              · rw [Next_neg _ _ hneg] at hnext
                cases hnext
              · rw [Next_of_nonneg _ _ (by omega)] at hnext
                simp only [Go.ret.injEq, Prod.mk.injEq] at hnext hnext4
                obtain ⟨hdata, hbuf1⟩ := hnext
                obtain ⟨hc, hbuf2⟩ := hnext4
                subst hdata hbuf1
                simp only at hc hbuf2
                subst hc hbuf2
                simp only at hcrc h
                generalize (toInt w ((length + 4) % 2 ^ 32)).toNat = k at hcrc h
                have hc4 : (List.take 4 (List.drop k (List.drop 4 unread))).length = 4 := by
                  by_contra hne
                  have hlt : (List.take 4 (List.drop k (List.drop 4 unread))).length < 4 := by
                    have := List.length_take_le 4 (List.drop k (List.drop 4 unread))
                    omega
                  rw [Uint32_short _ hlt] at hcrc
                  cases hcrc
                refine ⟨⟨length, ⟨List.take k (List.drop 4 unread),
                  List.drop k (List.drop 4 unread) ++ spare⟩, crc⟩, ?_⟩
                split at h
                · cases h
                · cases h
                · rename_i t ht
                  refine ⟨t, List.drop 4 (List.drop k (List.drop 4 unread)), ?_, ht, ?_⟩
                  · simp only [enc]
                    rw [PutUint32_of_Uint32 _ _ h4 hlen, PutUint32_of_Uint32 _ _ hc4 hcrc]
                    simp only [List.append_assoc, List.take_append_drop]
                  · by_cases hend : t = IEND
                    · left
                      simp only [hend, if_true, Go.ret.injEq, Except.ok.injEq,
                        Prod.mk.injEq] at h
                      exact ⟨hend, h.1.symm, h.2.symm⟩
                    · right
                      rw [if_neg hend] at h
                      exact ⟨hend, h⟩
    · exfalso
      rw [if_pos (by simpa using h4)] at h
      cases h

theorem Type_ne_fuel (c : Chunk) : c.Type ≠ .fuel := by
  unfold Chunk.Type
  split <;> simp

theorem Parse_eq (w : Nat) (data : Slice) :
    Parse w data =
      if List.take 8 data.elems ≠ Signature then .ret (.error "Incorrect signature")
      else
        match parseLoop w (data.len + 1) ⟨List.drop 8 data.elems, data.spare⟩ [] with
        | .panic m => .panic m
        | .fuel => .fuel
        | .ret (.error e) => .ret (.error e)
        | .ret (.ok (chunkList, buf)) =>
          match buf.Next (buf.Len : Int) with
          | .panic m => .panic m
          | .fuel => .fuel
          | .ret (trailer, _) => .ret (.ok ⟨chunkList, trailer⟩) := by
  unfold Parse
  simp only [Next_eight, NewBuffer]

/-- What a run of the loop that ends well has read is the encoding of the chunks
it appended, and `Type()` returned on each of them. -/
theorem parseLoop_ok (w fuel : Nat) (buf buf' : Buffer) (acc cl : List Chunk)
    (h : parseLoop w fuel buf acc = .ret (.ok (cl, buf'))) :
    ∃ new, cl = acc ++ new ∧ buf.unread = encs new ++ buf'.unread ∧ buf'.spare = buf.spare ∧
      Typed new := by
  induction fuel generalizing buf acc with
  | zero => simp [parseLoop] at h
  | succ fuel ih =>
    rcases parseLoop_succ_ok w fuel buf buf' acc cl h with
      ⟨hu, hcl, hb⟩ | ⟨chunk, t, rest, hu, ht, ⟨_, hcl, hb⟩ | ⟨_, hrec⟩⟩
    · subst hb
      exact ⟨[], by simp [hcl], by simp [encs], rfl, by simp [Typed]⟩
    · subst hb
      refine ⟨[chunk], hcl, by simp [encs, hu], rfl, ?_⟩
      intro c hc
      rw [List.mem_singleton] at hc
      exact ⟨t, hc ▸ ht⟩
    · obtain ⟨new, hcl, hr, hs, hty⟩ := ih _ _ hrec
      refine ⟨chunk :: new, by simp [hcl], ?_, hs, ?_⟩
      · rw [hu, encs_cons]
        simp only at hr
        rw [hr, List.append_assoc]
      · intro c hc
        rcases List.mem_cons.mp hc with rfl | hc
        · exact ⟨t, ht⟩
        · exact hty c hc

/-- A successful `Parse` has split its input into the signature, the encodings
of the chunks and the trailer, and `Type()` returns on every chunk. -/
theorem Parse_ok (w : Nat) (data : Slice) (img : Image)
    (h : Parse w data = .ret (.ok img)) :
    data.elems = Signature ++ encs img.ChunkList ++ img.Trailer.elems ∧ Typed img.ChunkList := by
  rw [Parse_eq] at h
  split at h
  · cases h
  · split at h
    · cases h
    · cases h
    · cases h
    · rename_i hsig _ cl buf hloop
      rw [Next_natCast] at h
      simp only [Go.ret.injEq, Except.ok.injEq] at h
      obtain ⟨new, hcl, hr, _, hty⟩ := parseLoop_ok _ _ _ _ _ _ hloop
      simp only [NewBuffer, List.nil_append] at hr hcl
      subst hcl
      have hsig' : List.take 8 data.elems = Signature := by
        simpa [NewBuffer] using hsig
      subst h
      refine ⟨?_, hty⟩
      simp only [Buffer.Len, List.take_length]
      rw [List.append_assoc, ← hr, ← hsig', List.take_append_drop]

/-! ## Termination of the parser -/

theorem parseLoop_ne_fuel (w fuel : Nat) (buf : Buffer) (acc : List Chunk)
    (hf : buf.unread.length < fuel) : parseLoop w fuel buf acc ≠ .fuel := by
  induction fuel generalizing buf acc with
  | zero => omega
  | succ fuel ih =>
    intro h
    rw [parseLoop, Next_four] at h
    dsimp only at h
    split at h
    · cases h
    · split at h
      · cases h
      · rename_i _ h4
        have h4 : (List.take 4 buf.unread).length = 4 := by simpa [Slice.len] using h4
        rw [List.length_take] at h4
        split at h
        · cases h
        · rename_i hu
          obtain ⟨v, hv⟩ := Uint32_of_length (List.take 4 buf.unread)
            (by rw [List.length_take]; omega)
          rw [hv] at hu
          cases hu
        · split at h
          · cases h
          · by_cases hneg : toInt w ((‹Nat› + 4) % 2 ^ 32) < 0
            · rw [Next_neg _ _ hneg] at h
              cases h
            · rw [Next_of_nonneg _ _ (by omega)] at h
              dsimp only at h
              rw [Next_four] at h
              dsimp only at h
              split at h
              · cases h
              · rename_i hu
                rw [Uint32_short _ (by
                  by_contra hc
                  obtain ⟨v, hv⟩ := Uint32_of_length _ (Nat.le_of_not_lt hc)
                  rw [hv] at hu
                  cases hu)] at hu
                cases hu
              · split at h
                · cases h
                · rename_i hT
                  exact Type_ne_fuel _ hT
                · split at h
                  · cases h
                  · refine ih _ _ ?_ h
                    simp only [List.length_drop]
                    omega

/-- The function `Parse` always comes to an end: the recursion bound of the
model is never used up. -/
theorem Parse_total (w : Nat) (data : Slice) : Parse w data ≠ .fuel := by
  intro h
  rw [Parse_eq] at h
  split at h
  · cases h
  · split at h
    · cases h
    · rename_i hloop
      refine parseLoop_ne_fuel _ _ _ _ ?_ hloop
      simp only [NewBuffer, List.length_drop, Slice.len]
      omega
    · cases h
    · rw [Next_natCast] at h
      cases h

/-! ## The scan for a chunk type and the list operations -/

theorem findType_ne_fuel (tag : List Byte) (l : List Chunk) (i : Nat) :
    findType tag l i ≠ .fuel := by
  induction l generalizing i with
  | nil => simp [findType]
  | cons c cs ih =>
    rw [findType]
    split
    · simp
    · rename_i hT
      exact absurd hT (Type_ne_fuel c)
    · split
      · simp
      · exact ih _

/-- The scan found index `k`: the list splits there, the chunk has the tag and
`Type()` returned another tag on every chunk before it. -/
theorem findType_some (tag : List Byte) (l : List Chunk) (i k : Nat)
    (h : findType tag l i = .ret (some k)) :
    ∃ pre c post, l = pre ++ c :: post ∧ k = i + pre.length ∧ c.Type = .ret tag ∧
      ∀ x ∈ pre, ∃ t, x.Type = .ret t ∧ t ≠ tag := by
  induction l generalizing i with
  | nil => simp [findType] at h
  | cons c cs ih =>
    rw [findType] at h
    split at h
    · cases h
    · cases h
    · rename_i t ht
      by_cases htag : t = tag
      · rw [if_pos htag] at h
        simp only [Go.ret.injEq, Option.some.injEq] at h
        exact ⟨[], c, cs, rfl, by simp [h], htag ▸ ht, by simp⟩
      · rw [if_neg htag] at h
        obtain ⟨pre, d, post, hl, hk, hd, hpre⟩ := ih _ h
        refine ⟨c :: pre, d, post, by simp [hl], by simp [hk]; omega, hd, ?_⟩
        intro x hx
        rcases List.mem_cons.mp hx with rfl | hx
        · exact ⟨t, ht, htag⟩
        · exact hpre x hx

/-- The scan ran to the end: `Type()` returned another tag on every chunk. -/
theorem findType_none (tag : List Byte) (l : List Chunk) (i : Nat)
    (h : findType tag l i = .ret none) : ∀ x ∈ l, ∃ t, x.Type = .ret t ∧ t ≠ tag := by
  induction l generalizing i with
  | nil => simp
  | cons c cs ih =>
    rw [findType] at h
    split at h
    · cases h
    · cases h
    · rename_i t ht
      by_cases htag : t = tag
      · rw [if_pos htag] at h
        cases h
      · rw [if_neg htag] at h
        intro x hx
        rcases List.mem_cons.mp hx with rfl | hx
        · exact ⟨t, ht, htag⟩
        · exact ih _ h x hx

theorem findType_split (tag : List Byte) (pre : List Chunk) (c : Chunk) (post : List Chunk)
    (i : Nat) (hpre : ∀ x ∈ pre, ∃ t, x.Type = .ret t ∧ t ≠ tag) (hc : c.Type = .ret tag) :
    findType tag (pre ++ c :: post) i = .ret (some (i + pre.length)) := by
  induction pre generalizing i with
  | nil => simp [findType, hc]
  | cons x xs ih =>
    obtain ⟨t, ht, hne⟩ := hpre x (List.mem_cons_self _ _)
    rw [List.cons_append, findType, ht]
    dsimp only
    rw [if_neg hne, ih (i + 1) (fun y hy => hpre y (List.mem_cons_of_mem _ hy))]
    simp only [List.length_cons]
    congr 2
    omega

theorem findType_all (tag : List Byte) (l : List Chunk) (i : Nat)
    (hl : ∀ x ∈ l, ∃ t, x.Type = .ret t ∧ t ≠ tag) : findType tag l i = .ret none := by
  induction l generalizing i with
  | nil => rfl
  | cons x xs ih =>
    obtain ⟨t, ht, hne⟩ := hl x (List.mem_cons_self _ _)
    rw [findType, ht]
    dsimp only
    rw [if_neg hne, ih (i + 1) (fun y hy => hl y (List.mem_cons_of_mem _ hy))]

theorem InsertBefore_split (pre : List Chunk) (c v : Chunk) (post : List Chunk) :
    InsertBefore (pre ++ c :: post) v pre.length = pre ++ v :: c :: post := by
  induction pre with
  | nil => rfl
  | cons x xs ih =>
    simp only [InsertBefore] at ih
    simp [InsertBefore, ih]

theorem Remove_split (pre : List Chunk) (c : Chunk) (post : List Chunk) :
    Remove (pre ++ c :: post) pre.length = pre ++ post := by
  induction pre with
  | nil => rfl
  | cons x xs ih =>
    simp only [Remove] at ih
    simp [Remove, ih]

theorem replace_split (pre : List Chunk) (c v : Chunk) (post : List Chunk) :
    Remove (InsertBefore (pre ++ c :: post) v pre.length) (pre.length + 1) = pre ++ v :: post := by
  rw [InsertBefore_split]
  have h := Remove_split (pre ++ [v]) c post
  simp only [List.length_append, List.length_singleton, List.append_assoc, List.singleton_append]
    at h
  exact h

/-! ## SetPhysChunk -/

theorem Type_GenerateChunk (phys : PhysChunk) : (GenerateChunk phys).Type = .ret pHYs := by
  simp [GenerateChunk, Chunk.Type, Slice.cap, pHYs, PutUint32]

theorem pHYs_ne_IDAT : pHYs ≠ IDAT := by decide

/-- The replace path, on the list split at the first pHYs chunk. -/
theorem replace_path_split (pre : List Chunk) (c : Chunk) (post : List Chunk)
    (tr : Slice) (phys : PhysChunk)
    (hpre : ∀ x ∈ pre, ∃ t, x.Type = .ret t ∧ t ≠ pHYs) (hc : c.Type = .ret pHYs) :
    SetPhysChunk ⟨pre ++ c :: post, tr⟩ phys
      = .ret (⟨pre ++ GenerateChunk phys :: post, tr⟩, none) := by
  simp only [SetPhysChunk, findType_split pHYs pre c post 0 hpre hc, Nat.zero_add,
    replace_split]

/-- The insert path, on the list split at the first IDAT chunk. -/
theorem insert_path_split (pre : List Chunk) (c : Chunk) (post : List Chunk)
    (tr : Slice) (phys : PhysChunk)
    (hall : ∀ x ∈ pre ++ c :: post, ∃ t, x.Type = .ret t ∧ t ≠ pHYs)
    (hpre : ∀ x ∈ pre, ∃ t, x.Type = .ret t ∧ t ≠ IDAT) (hc : c.Type = .ret IDAT) :
    SetPhysChunk ⟨pre ++ c :: post, tr⟩ phys
      = .ret (⟨pre ++ GenerateChunk phys :: c :: post, tr⟩, none) := by
  simp only [SetPhysChunk, findType_all pHYs _ 0 hall, findType_split IDAT pre c post 0 hpre hc,
    Nat.zero_add, InsertBefore_split]

/-- The failing path. -/
theorem fail_path_all (l : List Chunk) (tr : Slice) (phys : PhysChunk)
    (hp : ∀ x ∈ l, ∃ t, x.Type = .ret t ∧ t ≠ pHYs)
    (hd : ∀ x ∈ l, ∃ t, x.Type = .ret t ∧ t ≠ IDAT) :
    SetPhysChunk ⟨l, tr⟩ phys = .ret (⟨l, tr⟩, some "IDAT chunk not found") := by
  simp only [SetPhysChunk, findType_all pHYs _ 0 hp, findType_all IDAT _ 0 hd]

/-- Every return of `SetPhysChunk` is one of its three paths. -/
theorem SetPhysChunk_ret (img img' : Image) (phys : PhysChunk) (e : Option String)
    (h : SetPhysChunk img phys = .ret (img', e)) :
    (e = none ∧ ∃ pre c post, img.ChunkList = pre ++ c :: post ∧ c.Type = .ret pHYs ∧
        (∀ x ∈ pre, ∃ t, x.Type = .ret t ∧ t ≠ pHYs) ∧
        img' = ⟨pre ++ GenerateChunk phys :: post, img.Trailer⟩) ∨
    (e = none ∧ ∃ pre c post, img.ChunkList = pre ++ c :: post ∧ c.Type = .ret IDAT ∧
        (∀ x ∈ img.ChunkList, ∃ t, x.Type = .ret t ∧ t ≠ pHYs) ∧
        (∀ x ∈ pre, ∃ t, x.Type = .ret t ∧ t ≠ IDAT) ∧
        img' = ⟨pre ++ GenerateChunk phys :: c :: post, img.Trailer⟩) ∨
    (e = some "IDAT chunk not found" ∧ img' = img ∧
        (∀ x ∈ img.ChunkList, ∃ t, x.Type = .ret t ∧ t ≠ pHYs) ∧
        (∀ x ∈ img.ChunkList, ∃ t, x.Type = .ret t ∧ t ≠ IDAT)) := by
  obtain ⟨l, tr⟩ := img
  simp only [SetPhysChunk] at h
  split at h
  · cases h
  · cases h
  · rename_i i hfind
    obtain ⟨pre, c, post, hl, hk, hc, hpre⟩ := findType_some _ _ _ _ hfind
    simp only [Go.ret.injEq, Prod.mk.injEq] at h
    left
    subst hl
    rw [Nat.zero_add] at hk
    subst hk
    rw [replace_split] at h
    exact ⟨h.2.symm, pre, c, post, rfl, hc, hpre, h.1.symm⟩
  · rename_i hnone
    have hp := findType_none _ _ _ hnone
    split at h
    · cases h
    · cases h
    · rename_i i hfind
      obtain ⟨pre, c, post, hl, hk, hc, hpre⟩ := findType_some _ _ _ _ hfind
      simp only [Go.ret.injEq, Prod.mk.injEq] at h
      right; left
      subst hl
      rw [Nat.zero_add] at hk
      subst hk
      rw [InsertBefore_split] at h
      exact ⟨h.2.symm, pre, c, post, rfl, hc, hp, hpre, h.1.symm⟩
    · rename_i hnone2
      simp only [Go.ret.injEq, Prod.mk.injEq] at h
      right; right
      exact ⟨h.2.symm, h.1.symm, hp, findType_none _ _ _ hnone2⟩

/-! ## Chunks by index -/

theorem TypeAt_iff (l : List Chunk) (i : Nat) (tag : List Byte) :
    TypeAt l i tag ↔ ∃ c, l[i]? = some c ∧ c.Type = .ret tag := by
  unfold TypeAt
  cases l[i]? <;> simp

theorem TypeAt_append_left (pre rest : List Chunk) (j : Nat) (tag : List Byte)
    (hj : j < pre.length) : TypeAt (pre ++ rest) j tag ↔ TypeAt pre j tag := by
  unfold TypeAt
  rw [List.getElem?_append_left hj]

theorem TypeAt_append_right (pre rest : List Chunk) (j : Nat) (tag : List Byte) :
    TypeAt (pre ++ rest) (pre.length + j) tag ↔ TypeAt rest j tag := by
  unfold TypeAt
  rw [List.getElem?_append_right (by omega)]
  simp

theorem TypeAt_cons_zero (c : Chunk) (rest : List Chunk) (tag : List Byte) :
    TypeAt (c :: rest) 0 tag ↔ c.Type = .ret tag := by
  simp [TypeAt]

theorem TypeAt_cons_succ (c : Chunk) (rest : List Chunk) (j : Nat) (tag : List Byte) :
    TypeAt (c :: rest) (j + 1) tag ↔ TypeAt rest j tag := by
  simp [TypeAt]

theorem TypeAt_mem (l : List Chunk) (i : Nat) (tag : List Byte) (h : TypeAt l i tag) :
    ∃ c ∈ l, c.Type = .ret tag := by
  obtain ⟨c, hc, ht⟩ := (TypeAt_iff l i tag).mp h
  exact ⟨c, List.getElem?_mem hc, ht⟩

theorem not_TypeAt_of_all (l : List Chunk) (i : Nat) (tag : List Byte)
    (hl : ∀ x ∈ l, ∃ t, x.Type = .ret t ∧ t ≠ tag) : ¬ TypeAt l i tag := by
  intro h
  obtain ⟨c, hc, ht⟩ := TypeAt_mem l i tag h
  obtain ⟨t, ht', hne⟩ := hl c hc
  rw [ht] at ht'
  cases ht'
  exact hne rfl

theorem all_ne_of_NoType (l : List Chunk) (tag : List Byte) (hty : Typed l)
    (h : NoType l tag) : ∀ x ∈ l, ∃ t, x.Type = .ret t ∧ t ≠ tag := by
  intro x hx
  obtain ⟨t, ht⟩ := hty x hx
  exact ⟨t, ht, fun e => h x hx (e ▸ ht)⟩

theorem NoType_of_all (l : List Chunk) (tag : List Byte)
    (h : ∀ x ∈ l, ∃ t, x.Type = .ret t ∧ t ≠ tag) : NoType l tag := by
  intro x hx e
  obtain ⟨t, ht, hne⟩ := h x hx
  rw [e] at ht
  cases ht
  exact hne rfl

/-- The chunk invariant of the data model, `len(Data) = Length + 4`, gives every
chunk its type tag. -/
theorem Typed_of_invariant (l : List Chunk) (h : ∀ c ∈ l, c.Data.len = c.Length + 4) :
    Typed l := by
  intro c hc
  have hlen := h c hc
  refine ⟨(c.Data.elems ++ c.Data.spare).take 4, ?_⟩
  unfold Chunk.Type Slice.cap
  unfold Slice.len at hlen
  rw [if_pos (by omega)]

/-- A typed list splits at the first chunk of a given type. -/
theorem split_of_FirstAt (l : List Chunk) (i : Nat) (tag : List Byte) (hty : Typed l)
    (h : FirstAt l i tag) :
    ∃ c, l[i]? = some c ∧ l = l.take i ++ c :: l.drop (i + 1) ∧ (l.take i).length = i ∧
      c.Type = .ret tag ∧ ∀ x ∈ l.take i, ∃ t, x.Type = .ret t ∧ t ≠ tag := by
  obtain ⟨c, hc, ht⟩ := (TypeAt_iff l i tag).mp h.1
  have hi : i < l.length := (List.getElem?_eq_some_iff.mp hc).1
  have hget : l[i] = c := (List.getElem?_eq_some_iff.mp hc).2
  refine ⟨c, hc, ?_, by simp; omega, ht, ?_⟩
  · rw [← hget, ← List.drop_eq_getElem_cons hi, List.take_append_drop]
  · intro x hx
    obtain ⟨t, hxt⟩ := hty x (List.mem_of_mem_take hx)
    refine ⟨t, hxt, ?_⟩
    rintro rfl
    obtain ⟨j, hj, hxj⟩ := List.getElem_of_mem hx
    have hj' : j < i := by simp at hj; omega
    apply h.2 j hj'
    rw [TypeAt_iff]
    refine ⟨x, ?_, hxt⟩
    rw [List.getElem_take] at hxj
    rw [← hxj]
    exact List.getElem?_eq_getElem _

/-- The index of the split is the first index of the tag. -/
theorem FirstAt_of_split (pre : List Chunk) (c : Chunk) (post : List Chunk) (tag : List Byte)
    (hpre : ∀ x ∈ pre, ∃ t, x.Type = .ret t ∧ t ≠ tag) (hc : c.Type = .ret tag) :
    FirstAt (pre ++ c :: post) pre.length tag := by
  constructor
  · have := TypeAt_append_right pre (c :: post) 0 tag
    rw [Nat.add_zero] at this
    rw [this, TypeAt_cons_zero]
    exact hc
  · intro j hj
    rw [TypeAt_append_left _ _ _ _ hj]
    exact not_TypeAt_of_all pre j tag hpre

theorem exists_FirstAt (l : List Chunk) (tag : List Byte)
    (h : ∃ c ∈ l, c.Type = .ret tag) : ∃ i, FirstAt l i tag := by
  induction l with
  | nil => simp at h
  | cons x xs ih =>
    by_cases hx : x.Type = .ret tag
    · exact ⟨0, (TypeAt_cons_zero x xs tag).mpr hx, by intro j hj; omega⟩
    · obtain ⟨c, hc, hct⟩ := h
      rcases List.mem_cons.mp hc with rfl | hc
      · exact absurd hct hx
      · obtain ⟨i, hi, hfirst⟩ := ih ⟨c, hc, hct⟩
        refine ⟨i + 1, (TypeAt_cons_succ x xs i tag).mpr hi, ?_⟩
        intro j hj
        cases j with
        | zero => rw [TypeAt_cons_zero]; exact hx
        | succ j => rw [TypeAt_cons_succ]; exact hfirst j (by omega)

/-! ## Round trip -/

/-- C1: for every byte sequence on which `Parse` succeeds with a container
(whatever the width of `int`), `Dump` of that container, not mutated, succeeds
and returns exactly the input bytes, trailer included. -/
theorem Dump_Parse_roundtrip (w : Nat) (b : Slice) (c : Image)
    (h : Parse w b = .ret (.ok c)) : Dump c = .ok b.elems := by
  rw [Dump_eq, (Parse_ok w b c h).1]

theorem Dump_Parse_roundtrip_witness :
    Parse 64 samplePNG = .ret (.ok (parsed 64 samplePNG)) ∧
      Dump (parsed 64 samplePNG) = .ok samplePNG.elems :=
  ⟨by decide, Dump_Parse_roundtrip 64 samplePNG (parsed 64 samplePNG) (by decide)⟩

/-! ## The replace path -/

/-- C4: on a container whose chunks all carry a type tag and which holds a chunk
of type "pHYs", `SetPhysChunk` succeeds; with `i` the index of the first pHYs
chunk, the resulting sequence has the same length and is the original with the
element at `i` replaced by `GenerateChunk(phys)`; the element at every other
index and the trailer are unchanged. -/
theorem SetPhysChunk_replace (img : Image) (phys : PhysChunk) (hty : Typed img.ChunkList)
    (hc : ∃ c ∈ img.ChunkList, c.Type = .ret pHYs) :
    ∃ i img', FirstAt img.ChunkList i pHYs ∧
      SetPhysChunk img phys = .ret (img', none) ∧
      img'.ChunkList.length = img.ChunkList.length ∧
      img'.ChunkList = img.ChunkList.set i (GenerateChunk phys) ∧
      img'.ChunkList[i]? = some (GenerateChunk phys) ∧
      (∀ j, j ≠ i → img'.ChunkList[j]? = img.ChunkList[j]?) ∧
      img'.Trailer = img.Trailer := by
  obtain ⟨i, hi⟩ := exists_FirstAt _ _ hc
  obtain ⟨c, hci, hl, _, hct, hpre⟩ := split_of_FirstAt _ _ _ hty hi
  have hlt : i < img.ChunkList.length := (List.getElem?_eq_some_iff.mp hci).1
  have hrun := replace_path_split _ c (img.ChunkList.drop (i + 1)) img.Trailer phys
    hpre hct
  rw [← hl] at hrun
  have hset : img.ChunkList.take i ++ GenerateChunk phys :: img.ChunkList.drop (i + 1)
      = img.ChunkList.set i (GenerateChunk phys) := by
    rw [List.set_eq_take_append_cons_drop, if_pos hlt]
  rw [hset] at hrun
  refine ⟨i, _, hi, hrun, ?_, rfl, ?_, ?_, rfl⟩
  · simp
  · simp [List.getElem?_set_self, hlt]
  · intro j hj
    simp only
    rw [List.getElem?_set_ne (Ne.symm hj)]

theorem SetPhysChunk_replace_witness :
    Parse 64 samplePhysPNG = .ret (.ok (parsed 64 samplePhysPNG)) ∧
    ∃ i img', FirstAt (parsed 64 samplePhysPNG).ChunkList i pHYs ∧
      SetPhysChunk (parsed 64 samplePhysPNG) samplePhys = .ret (img', none) ∧
      img'.ChunkList.length = (parsed 64 samplePhysPNG).ChunkList.length ∧
      img'.ChunkList = (parsed 64 samplePhysPNG).ChunkList.set i (GenerateChunk samplePhys) ∧
      img'.ChunkList[i]? = some (GenerateChunk samplePhys) ∧
      (∀ j, j ≠ i → img'.ChunkList[j]? = (parsed 64 samplePhysPNG).ChunkList[j]?) ∧
      img'.Trailer = (parsed 64 samplePhysPNG).Trailer :=
  ⟨by decide, SetPhysChunk_replace (parsed 64 samplePhysPNG) samplePhys
    (Parse_ok 64 samplePhysPNG _ (by decide)).2 (by decide)⟩

/-! ## The insert path -/

/-- C5: on a container whose chunks all carry a type tag, with no chunk of type
"pHYs" and with the first chunk of type "IDAT" at index `i`, `SetPhysChunk`
succeeds and the resulting sequence is `original[0..i) ++ [GenerateChunk(phys)]
++ original[i..]`, the trailer unchanged. -/
theorem SetPhysChunk_insert (img : Image) (phys : PhysChunk) (i : Nat)
    (hty : Typed img.ChunkList) (hno : NoType img.ChunkList pHYs)
    (hi : FirstAt img.ChunkList i IDAT) :
    SetPhysChunk img phys =
      .ret (⟨img.ChunkList.take i ++ [GenerateChunk phys] ++ img.ChunkList.drop i,
             img.Trailer⟩, none) := by
  obtain ⟨c, hci, hl, _, hct, hpre⟩ := split_of_FirstAt _ _ _ hty hi
  have hlt : i < img.ChunkList.length := (List.getElem?_eq_some_iff.mp hci).1
  have hget : img.ChunkList[i] = c := (List.getElem?_eq_some_iff.mp hci).2
  have hrun := insert_path_split _ c (img.ChunkList.drop (i + 1)) img.Trailer phys
    (by rw [← hl]; exact all_ne_of_NoType _ _ hty hno) hpre hct
  rw [← hl] at hrun
  rw [hrun, List.drop_eq_getElem_cons hlt, hget]
  simp

theorem SetPhysChunk_insert_witness :
    Parse 64 samplePNG = .ret (.ok (parsed 64 samplePNG)) ∧
    (parsed 64 samplePNG).ChunkList.map Chunk.Type = [.ret [0x49, 0x48, 0x44, 0x52], .ret IDAT, .ret IEND] ∧
    SetPhysChunk (parsed 64 samplePNG) samplePhys =
      .ret (⟨(parsed 64 samplePNG).ChunkList.take 1 ++ [GenerateChunk samplePhys]
              ++ (parsed 64 samplePNG).ChunkList.drop 1, (parsed 64 samplePNG).Trailer⟩, none) ∧
    (afterSetPhys (parsed 64 samplePNG) samplePhys).ChunkList.map Chunk.Type
      = [.ret [0x49, 0x48, 0x44, 0x52], .ret pHYs, .ret IDAT, .ret IEND] ∧
    (GenerateChunk samplePhys).Data.elems
      = pHYs ++ [0x00, 0x00, 0x0b, 0x13, 0x00, 0x00, 0x0b, 0x13, 0x01] :=
  ⟨by decide, by decide, SetPhysChunk_insert (parsed 64 samplePNG) samplePhys 1
    (Parse_ok 64 samplePNG _ (by decide)).2 (by decide) (by decide), by decide, by decide⟩

/-! ## The failing path -/

/-- C6: on a container whose chunks all carry a type tag, `SetPhysChunk` returns
an error if and only if the sequence holds neither a "pHYs" nor an "IDAT" chunk;
and whenever it returns an error, the container (chunk sequence and trailer) is
exactly as before the call. -/
theorem SetPhysChunk_error_iff (img : Image) (phys : PhysChunk) (hty : Typed img.ChunkList) :
    ((∃ img' e, SetPhysChunk img phys = .ret (img', some e)) ↔
        NoType img.ChunkList pHYs ∧ NoType img.ChunkList IDAT) ∧
    ∀ img' e, SetPhysChunk img phys = .ret (img', some e) →
      img'.ChunkList = img.ChunkList ∧ img'.Trailer = img.Trailer := by
  constructor
  · constructor
    · rintro ⟨img', e, h⟩
      rcases SetPhysChunk_ret _ _ _ _ h with ⟨he, _⟩ | ⟨he, _⟩ | ⟨_, _, hp, hd⟩
      · cases he
      · cases he
      · exact ⟨NoType_of_all _ _ hp, NoType_of_all _ _ hd⟩
    · rintro ⟨hp, hd⟩
      exact ⟨img, _, fail_path_all img.ChunkList img.Trailer phys
        (all_ne_of_NoType _ _ hty hp) (all_ne_of_NoType _ _ hty hd)⟩
  · intro img' e h
    rcases SetPhysChunk_ret _ _ _ _ h with ⟨he, _⟩ | ⟨he, _⟩ | ⟨_, himg, _, _⟩
    · cases he
    · cases he
    · rw [himg]
      exact ⟨rfl, rfl⟩

theorem SetPhysChunk_error_iff_witness :
    Parse 64 sampleNoIdatPNG = .ret (.ok (parsed 64 sampleNoIdatPNG)) ∧
    (parsed 64 sampleNoIdatPNG).ChunkList.map Chunk.Type = [.ret [0x49, 0x48, 0x44, 0x52], .ret IEND] ∧
    SetPhysChunk (parsed 64 sampleNoIdatPNG) samplePhys
      = .ret (parsed 64 sampleNoIdatPNG, some "IDAT chunk not found") ∧
    (((∃ img' e, SetPhysChunk (parsed 64 sampleNoIdatPNG) samplePhys = .ret (img', some e)) ↔
        NoType (parsed 64 sampleNoIdatPNG).ChunkList pHYs ∧
          NoType (parsed 64 sampleNoIdatPNG).ChunkList IDAT) ∧
    ∀ img' e, SetPhysChunk (parsed 64 sampleNoIdatPNG) samplePhys = .ret (img', some e) →
      img'.ChunkList = (parsed 64 sampleNoIdatPNG).ChunkList ∧
        img'.Trailer = (parsed 64 sampleNoIdatPNG).Trailer) :=
  ⟨by decide, by decide, by decide,
    SetPhysChunk_error_iff (parsed 64 sampleNoIdatPNG) samplePhys
      (Parse_ok 64 sampleNoIdatPNG _ (by decide)).2⟩

/-! ## Counting pHYs chunks -/

theorem countType_split (tag : List Byte) (pre : List Chunk) (c : Chunk) (post : List Chunk) :
    countType tag (pre ++ c :: post)
      = countType tag pre + (if c.Type = .ret tag then 1 else 0) + countType tag post := by
  simp only [countType, List.countP_append, List.countP_cons, decide_eq_true_eq]
  omega

theorem countType_eq_zero (tag : List Byte) (l : List Chunk)
    (h : ∀ x ∈ l, ∃ t, x.Type = .ret t ∧ t ≠ tag) : countType tag l = 0 := by
  rw [countType, List.countP_eq_zero]
  intro x hx
  simpa using NoType_of_all l tag h x hx

/-- C7 as the code has it: after `SetPhysChunk` succeeds, the sequence holds as
many "pHYs" chunks as before when it held any (only the first is replaced), and
one when it held none; so exactly one whenever it held at most one before. -/
theorem SetPhysChunk_count (img img' : Image) (phys : PhysChunk)
    (h : SetPhysChunk img phys = .ret (img', none)) :
    countType pHYs img'.ChunkList = max 1 (countType pHYs img.ChunkList) ∧
    (countType pHYs img.ChunkList ≤ 1 → countType pHYs img'.ChunkList = 1) := by
  have key : countType pHYs img'.ChunkList = max 1 (countType pHYs img.ChunkList) := by
    rcases SetPhysChunk_ret _ _ _ _ h with
      ⟨_, pre, c, post, hl, hc, _, himg⟩ | ⟨_, pre, c, post, hl, hc, hall, _, himg⟩ | ⟨he, _⟩
    · rw [himg, hl, countType_split, countType_split, if_pos hc,
        if_pos (Type_GenerateChunk phys)]
      omega
    · rw [himg, countType_eq_zero _ _ hall]
      rw [hl] at hall
      have h1 : countType pHYs pre = 0 :=
        countType_eq_zero _ _ (fun x hx => hall x (List.mem_append_left _ hx))
      have h2 : countType pHYs (c :: post) = 0 :=
        countType_eq_zero _ _ (fun x hx => hall x (List.mem_append_right _ hx))
      have h3 := countType_split pHYs pre (GenerateChunk phys) (c :: post)
      rw [if_pos (Type_GenerateChunk phys), h1, h2] at h3
      rw [h3]
      rfl
    · cases he
  exact ⟨key, fun hle => by rw [key]; omega⟩

theorem SetPhysChunk_count_witness :
    Parse 64 samplePNG = .ret (.ok (parsed 64 samplePNG)) ∧
    countType pHYs (parsed 64 samplePNG).ChunkList = 0 ∧
    countType pHYs (afterSetPhys (parsed 64 samplePNG) samplePhys).ChunkList
      = max 1 (countType pHYs (parsed 64 samplePNG).ChunkList) ∧
    (countType pHYs (parsed 64 samplePNG).ChunkList ≤ 1 →
      countType pHYs (afterSetPhys (parsed 64 samplePNG) samplePhys).ChunkList = 1) :=
  ⟨by decide, by decide,
    SetPhysChunk_count (parsed 64 samplePNG) (afterSetPhys (parsed 64 samplePNG) samplePhys)
      samplePhys (by decide)⟩

/-- C7 fails as stated: a file with two pHYs chunks (IHDR, pHYs, pHYs, IDAT,
IEND) parses, `SetPhysChunk` succeeds on it, and the result still holds two
chunks of type "pHYs". -/
theorem SetPhysChunk_two_pHYs :
    Parse 64 sampleTwoPhysPNG = .ret (.ok (parsed 64 sampleTwoPhysPNG)) ∧
    SetPhysChunk (parsed 64 sampleTwoPhysPNG) samplePhys
      = .ret (afterSetPhys (parsed 64 sampleTwoPhysPNG) samplePhys, none) ∧
    (afterSetPhys (parsed 64 sampleTwoPhysPNG) samplePhys).ChunkList.map Chunk.Type
      = [.ret [0x49, 0x48, 0x44, 0x52], .ret pHYs, .ret pHYs, .ret IDAT, .ret IEND] ∧
    countType pHYs (afterSetPhys (parsed 64 sampleTwoPhysPNG) samplePhys).ChunkList = 2 := by
  decide

/-! ## Idempotence -/

/-- C8: if `SetPhysChunk(c, p)` succeeds and leaves `c1`, then
`SetPhysChunk(c1, p)` succeeds too and leaves `c1` again: the same chunks, value
by value, and the same trailer. -/
theorem SetPhysChunk_idempotent (c c1 : Image) (phys : PhysChunk)
    (h : SetPhysChunk c phys = .ret (c1, none)) :
    SetPhysChunk c1 phys = .ret (c1, none) := by
  rcases SetPhysChunk_ret _ _ _ _ h with
    ⟨_, pre, x, post, _, _, hpre, himg⟩ | ⟨_, pre, x, post, hl, _, hall, _, himg⟩ | ⟨he, _⟩
  · rw [himg]
    exact replace_path_split pre _ post c.Trailer phys hpre (Type_GenerateChunk phys)
  · rw [himg]
    rw [hl] at hall
    exact replace_path_split pre _ (x :: post) c.Trailer phys
      (fun y hy => hall y (List.mem_append_left _ hy)) (Type_GenerateChunk phys)
  · cases he

theorem SetPhysChunk_idempotent_witness :
    SetPhysChunk (parsed 64 samplePNG) samplePhys
      = .ret (afterSetPhys (parsed 64 samplePNG) samplePhys, none) ∧
    SetPhysChunk (afterSetPhys (parsed 64 samplePNG) samplePhys) samplePhys
      = .ret (afterSetPhys (parsed 64 samplePNG) samplePhys, none) :=
  ⟨by decide, SetPhysChunk_idempotent (parsed 64 samplePNG)
    (afterSetPhys (parsed 64 samplePNG) samplePhys) samplePhys (by decide)⟩

/-! ## Ordering -/

theorem TypeAt_lt (l : List Chunk) (i : Nat) (tag : List Byte) (h : TypeAt l i tag) :
    i < l.length := by
  obtain ⟨c, hc, _⟩ := (TypeAt_iff l i tag).mp h
  exact (List.getElem?_eq_some_iff.mp hc).1

theorem TypeAt_unique (l : List Chunk) (i : Nat) (s t : List Byte) (hs : TypeAt l i s)
    (ht : TypeAt l i t) : s = t := by
  unfold TypeAt at hs ht
  rw [hs] at ht
  simpa using ht

theorem TypeAt_replace (pre : List Chunk) (c g : Chunk) (post : List Chunk) (j : Nat)
    (tag : List Byte) (h : c.Type = g.Type) :
    TypeAt (pre ++ g :: post) j tag ↔ TypeAt (pre ++ c :: post) j tag := by
  by_cases hj : j < pre.length
  · rw [TypeAt_append_left _ _ _ _ hj, TypeAt_append_left _ _ _ _ hj]
  · obtain ⟨k, rfl⟩ : ∃ k, j = pre.length + k := ⟨j - pre.length, by omega⟩
    rw [TypeAt_append_right, TypeAt_append_right]
    cases k with
    | zero => rw [TypeAt_cons_zero, TypeAt_cons_zero, h]
    | succ k => rw [TypeAt_cons_succ, TypeAt_cons_succ]

/-- C9: on a container in which no "pHYs" chunk sits at an index greater than
the index of some "IDAT" chunk, if `SetPhysChunk` succeeds then the result holds
a pHYs chunk and the index of every pHYs chunk is strictly less than the index
of every IDAT chunk. -/
theorem SetPhysChunk_order (img img' : Image) (phys : PhysChunk)
    (hord : ∀ i j, TypeAt img.ChunkList i IDAT → TypeAt img.ChunkList j pHYs → ¬ i < j)
    (h : SetPhysChunk img phys = .ret (img', none)) :
    (∃ j, TypeAt img'.ChunkList j pHYs) ∧
    ∀ i j, TypeAt img'.ChunkList j pHYs → TypeAt img'.ChunkList i IDAT → j < i := by
  rcases SetPhysChunk_ret _ _ _ _ h with
    ⟨_, pre, c, post, hl, hc, hpre, himg⟩ | ⟨_, pre, c, post, hl, hc, hall, hpre, himg⟩ | ⟨he, _⟩
  · have hg : c.Type = (GenerateChunk phys).Type := by rw [hc, Type_GenerateChunk]
    rw [himg]
    refine ⟨⟨pre.length, (FirstAt_of_split pre _ post pHYs hpre (Type_GenerateChunk phys)).1⟩, ?_⟩
    intro i j hj hi
    simp only at hj hi
    rw [TypeAt_replace pre c _ post _ _ hg, ← hl] at hj hi
    have hne : i ≠ j := by
      rintro rfl
      exact pHYs_ne_IDAT (TypeAt_unique _ _ _ _ hj hi)
    have := hord i j hi hj
    omega
  · rw [himg]
    have hf := FirstAt_of_split pre (GenerateChunk phys) (c :: post) pHYs
      (fun x hx => hall x (hl ▸ List.mem_append_left _ hx)) (Type_GenerateChunk phys)
    refine ⟨⟨pre.length, hf.1⟩, ?_⟩
    intro i j hj hi
    simp only at hj hi
    have hj' : j = pre.length := by
      by_contra hne
      by_cases hlt : j < pre.length
      · exact hf.2 j hlt hj
      · obtain ⟨k, rfl⟩ : ∃ k, j = pre.length + (k + 1) := ⟨j - pre.length - 1, by omega⟩
        rw [TypeAt_append_right, TypeAt_cons_succ] at hj
        exact not_TypeAt_of_all (c :: post) k pHYs
          (fun x hx => hall x (hl ▸ List.mem_append_right _ hx)) hj
    subst hj'
    by_contra hle
    by_cases hlt : i < pre.length
    · rw [TypeAt_append_left _ _ _ _ hlt] at hi
      exact not_TypeAt_of_all pre i IDAT hpre hi
    · have hi' : i = pre.length := by omega
      subst hi'
      exact pHYs_ne_IDAT (TypeAt_unique _ _ _ _ hf.1 hi)
  · cases he

theorem samplePhysPNG_order (i j : Nat)
    (hi : TypeAt (parsed 64 samplePhysPNG).ChunkList i IDAT)
    (hj : TypeAt (parsed 64 samplePhysPNG).ChunkList j pHYs) : ¬ i < j := by
  have hbound : ∀ i, i < 4 → ∀ j, j < 4 →
      TypeAt (parsed 64 samplePhysPNG).ChunkList i IDAT →
      TypeAt (parsed 64 samplePhysPNG).ChunkList j pHYs → ¬ i < j := by decide
  have hlen : (parsed 64 samplePhysPNG).ChunkList.length = 4 := by decide
  exact hbound i (hlen ▸ TypeAt_lt _ _ _ hi) j (hlen ▸ TypeAt_lt _ _ _ hj) hi hj

theorem SetPhysChunk_order_witness :
    (parsed 64 samplePhysPNG).ChunkList.map Chunk.Type
      = [.ret [0x49, 0x48, 0x44, 0x52], .ret pHYs, .ret IDAT, .ret IEND] ∧
    SetPhysChunk (parsed 64 samplePhysPNG) samplePhys
      = .ret (afterSetPhys (parsed 64 samplePhysPNG) samplePhys, none) ∧
    (∃ j, TypeAt (afterSetPhys (parsed 64 samplePhysPNG) samplePhys).ChunkList j pHYs) ∧
    ∀ i j, TypeAt (afterSetPhys (parsed 64 samplePhysPNG) samplePhys).ChunkList j pHYs →
      TypeAt (afterSetPhys (parsed 64 samplePhysPNG) samplePhys).ChunkList i IDAT → j < i :=
  ⟨by decide, by decide,
    SetPhysChunk_order (parsed 64 samplePhysPNG) (afterSetPhys (parsed 64 samplePhysPNG) samplePhys)
      samplePhys samplePhysPNG_order (by decide)⟩

/-! ## Edit locality -/

/-- C10: if `Parse` succeeds on the bytes `b` and `SetPhysChunk` then succeeds,
`Dump` of the mutated container is `pre ++ enc(GenerateChunk(phys)) ++ post`
where `b = pre ++ mid ++ post`: `mid` is the encoding (length, data, crc) of the
first pHYs chunk when there is one; otherwise `mid` is empty and `post` begins
with the encoding of the first IDAT chunk. In both cases `pre` is the signature
and the chunks before that index, `post` ends with the chunks after it and the
trailer. -/
theorem Dump_SetPhysChunk_local (w : Nat) (b : Slice) (c c' : Image) (phys : PhysChunk)
    (hp : Parse w b = .ret (.ok c)) (hs : SetPhysChunk c phys = .ret (c', none)) :
    ∃ pre mid post, b.elems = pre ++ mid ++ post ∧
      Dump c' = .ok (pre ++ enc (GenerateChunk phys) ++ post) ∧
      ((∃ i x, FirstAt c.ChunkList i pHYs ∧ c.ChunkList[i]? = some x ∧
          pre = Signature ++ encs (c.ChunkList.take i) ∧ mid = enc x ∧
          post = encs (c.ChunkList.drop (i + 1)) ++ c.Trailer.elems) ∨
       (NoType c.ChunkList pHYs ∧ ∃ i x, FirstAt c.ChunkList i IDAT ∧ c.ChunkList[i]? = some x ∧
          pre = Signature ++ encs (c.ChunkList.take i) ∧ mid = [] ∧
          post = enc x ++ encs (c.ChunkList.drop (i + 1)) ++ c.Trailer.elems)) := by
  have hb := (Parse_ok w b c hp).1
  rcases SetPhysChunk_ret _ _ _ _ hs with
    ⟨_, pre, x, post, hl, hx, hpre, himg⟩ | ⟨_, pre, x, post, hl, hx, hall, hpre, himg⟩ | ⟨he, _⟩
  · have hget : c.ChunkList[pre.length]? = some x := by
      rw [hl, List.getElem?_append_right (Nat.le_refl _)]; simp
    have htake : c.ChunkList.take pre.length = pre := by rw [hl]; simp
    have hdrop : c.ChunkList.drop (pre.length + 1) = post := by rw [hl]; simp
    refine ⟨Signature ++ encs pre, enc x, encs post ++ c.Trailer.elems, ?_, ?_, ?_⟩
    · rw [hb, hl, encs_append, encs_cons]
      simp only [List.append_assoc]
    · rw [Dump_eq, himg]
      simp only [encs_append, encs_cons, List.append_assoc]
    · left
      refine ⟨pre.length, x, ?_, hget, by rw [htake], rfl, by rw [hdrop]⟩
      rw [hl]
      exact FirstAt_of_split pre x post pHYs hpre hx
  · have hget : c.ChunkList[pre.length]? = some x := by
      rw [hl, List.getElem?_append_right (Nat.le_refl _)]; simp
    have htake : c.ChunkList.take pre.length = pre := by rw [hl]; simp
    have hdrop : c.ChunkList.drop (pre.length + 1) = post := by rw [hl]; simp
    refine ⟨Signature ++ encs pre, [], enc x ++ encs post ++ c.Trailer.elems, ?_, ?_, ?_⟩
    · rw [hb, hl, encs_append, encs_cons]
      simp only [List.append_assoc, List.append_nil]
    · rw [Dump_eq, himg]
      simp only [encs_append, encs_cons, List.append_assoc]
    · right
      refine ⟨NoType_of_all _ _ hall, pre.length, x, ?_, hget, by rw [htake], rfl,
        by rw [hdrop]⟩
      rw [hl]
      exact FirstAt_of_split pre x post IDAT hpre hx
  · cases he

theorem Dump_SetPhysChunk_local_witness :
    Parse 64 samplePNG = .ret (.ok (parsed 64 samplePNG)) ∧
    SetPhysChunk (parsed 64 samplePNG) samplePhys
      = .ret (afterSetPhys (parsed 64 samplePNG) samplePhys, none) ∧
    Dump (afterSetPhys (parsed 64 samplePNG) samplePhys)
      = .ok (Signature ++ ihdrBytes ++ physBytes ++ idatBytes ++ iendBytes ++ [0x0d, 0x0a]) ∧
    ∃ pre mid post, samplePNG.elems = pre ++ mid ++ post ∧
      Dump (afterSetPhys (parsed 64 samplePNG) samplePhys)
        = .ok (pre ++ enc (GenerateChunk samplePhys) ++ post) ∧
      ((∃ i x, FirstAt (parsed 64 samplePNG).ChunkList i pHYs ∧
          (parsed 64 samplePNG).ChunkList[i]? = some x ∧
          pre = Signature ++ encs ((parsed 64 samplePNG).ChunkList.take i) ∧ mid = enc x ∧
          post = encs ((parsed 64 samplePNG).ChunkList.drop (i + 1))
            ++ (parsed 64 samplePNG).Trailer.elems) ∨
       (NoType (parsed 64 samplePNG).ChunkList pHYs ∧
        ∃ i x, FirstAt (parsed 64 samplePNG).ChunkList i IDAT ∧
          (parsed 64 samplePNG).ChunkList[i]? = some x ∧
          pre = Signature ++ encs ((parsed 64 samplePNG).ChunkList.take i) ∧ mid = [] ∧
          post = enc x ++ encs ((parsed 64 samplePNG).ChunkList.drop (i + 1))
            ++ (parsed 64 samplePNG).Trailer.elems)) :=
  ⟨by decide, by decide, by decide,
    Dump_SetPhysChunk_local 64 samplePNG (parsed 64 samplePNG)
      (afterSetPhys (parsed 64 samplePNG) samplePhys) samplePhys (by decide) (by decide)⟩

/-! ## The bounds check with a 32-bit `int` -/

theorem toInt_32 (x : Nat) (hx : x < 2 ^ 32) :
    toInt 32 x = if x < 2 ^ 31 then (x : Int) else (x : Int) - 2 ^ 32 := by
  unfold toInt
  rw [Nat.mod_eq_of_lt hx]
  norm_num

theorem toInt_64 (x : Nat) (hx : x < 2 ^ 32) : toInt 64 x = (x : Int) := by
  unfold toInt
  rw [Nat.mod_eq_of_lt (by omega), if_pos (by norm_num; omega)]

/-- What the bounds check of `Parse` lets through when `int` has 32 bits: the
declared length and eight more bytes are in the buffer. -/
theorem check_32 (length len : Nat) (hl : length < 2 ^ 32)
    (h : ¬ (toInt 32 length < 0 ∨ toInt 32 ((length + 8) % 2 ^ 32) < 0
      ∨ (len : Int) < toInt 32 ((length + 8) % 2 ^ 32))) :
    length + 8 ≤ len ∧ toInt 32 ((length + 4) % 2 ^ 32) = ((length + 4 : Nat) : Int) := by
  have h8 : (length + 8) % 2 ^ 32 < 2 ^ 32 := Nat.mod_lt _ (by norm_num)
  have h4 : (length + 4) % 2 ^ 32 < 2 ^ 32 := Nat.mod_lt _ (by norm_num)
  rw [toInt_32 _ hl, toInt_32 _ h8] at h
  rw [toInt_32 _ h4]
  push_neg at h
  obtain ⟨h1, h2, h3⟩ := h
  have hlt : length < 2 ^ 31 := by
    by_contra hc
    rw [if_neg hc] at h1
    omega
  have e8 : (length + 8) % 2 ^ 32 = length + 8 := Nat.mod_eq_of_lt (by omega)
  have e4 : (length + 4) % 2 ^ 32 = length + 4 := Nat.mod_eq_of_lt (by omega)
  rw [e8] at h2 h3
  rw [e4]
  have hlt8 : length + 8 < 2 ^ 31 := by
    by_contra hc
    rw [if_neg hc] at h2
    omega
  rw [if_pos hlt8] at h3
  rw [if_pos (by omega)]
  exact ⟨by omega, rfl⟩

/-- With a 32-bit `int` the loop of `Parse` never panics. -/
theorem parseLoop_32_no_panic (fuel : Nat) (buf : Buffer) (acc : List Chunk) (m : String) :
    parseLoop 32 fuel buf acc ≠ .panic m := by
  induction fuel generalizing buf acc with
  | zero => simp [parseLoop]
  | succ fuel ih =>
    intro h
    rw [parseLoop, Next_four] at h
    dsimp only at h
    split at h
    · cases h
    · split at h
      · cases h
      · rename_i _ h4
        have h4 : (List.take 4 buf.unread).length = 4 := by simpa [Slice.len] using h4
        obtain ⟨length, hlen⟩ := Uint32_of_length (List.take 4 buf.unread) (by omega)
        have hl := Uint32_lt _ _ hlen
        rw [hlen] at h
        dsimp only at h
        split at h
        · cases h
        · rename_i hcheck
          obtain ⟨hle, hto⟩ := check_32 length _ hl hcheck
          simp only [Buffer.Len, List.length_drop] at hle
          rw [hto, Next_natCast] at h
          dsimp only at h
          rw [Next_four] at h
          dsimp only at h
          obtain ⟨crc, hcrc⟩ := Uint32_of_length
            (List.take 4 (List.drop (length + 4) (List.drop 4 buf.unread)))
            (by simp only [List.length_take, List.length_drop]; omega)
          rw [hcrc] at h
          dsimp only at h
          split at h
          · rename_i hT
            simp only [Chunk.Type, Slice.cap, List.length_take, List.length_drop,
              List.length_append] at hT
            rw [if_pos (by omega)] at hT
            cases hT
          · cases h
          · split at h
            · cases h
            · exact ih _ _ h

/-- Safety holds where `int` has 32 bits: `Parse` returns a container or an
error on every input, it never panics. -/
theorem Parse_32_no_panic (data : Slice) (m : String) : Parse 32 data ≠ .panic m := by
  intro h
  rw [Parse_eq] at h
  split at h
  · cases h
  · split at h
    · rename_i hloop
      exact parseLoop_32_no_panic _ _ _ _ hloop
    · cases h
    · cases h
    · rw [Next_natCast] at h
      cases h

/-- Truncation is detected where the addition `length+8` does not wrap: with a
32-bit `int` for every declared length, with a 64-bit `int` for declared lengths
below 0xFFFFFFF8. When fewer than `length + 8` bytes follow the length field,
the iteration returns the error. -/
theorem parseLoop_truncated (w fuel : Nat) (buf : Buffer) (acc : List Chunk)
    (u32 rest : List Byte) (length : Nat)
    (hw : w = 32 ∨ (w = 64 ∧ length + 8 < 2 ^ 32))
    (hu : buf.unread = u32 ++ rest) (h4 : u32.length = 4) (hlen : Uint32 u32 = .ret length)
    (hshort : rest.length < length + 8) :
    parseLoop w (fuel + 1) buf acc = .ret (.error "Broken structure of chunk") := by
  have hl := Uint32_lt _ _ hlen
  have htake : List.take 4 buf.unread = u32 := by rw [hu, ← h4, List.take_left]
  have hdrop : List.drop 4 buf.unread = rest := by rw [hu, ← h4, List.drop_left]
  rw [parseLoop, Next_four]
  dsimp only
  rw [htake, hdrop]
  simp only [Slice.len, h4]
  rw [if_neg (by decide), if_neg (by decide), hlen]
  dsimp only
  rw [if_pos]
  simp only [Buffer.Len]
  have h8 : (length + 8) % 2 ^ 32 < 2 ^ 32 := Nat.mod_lt _ (by norm_num)
  rcases hw with rfl | ⟨rfl, hno⟩
  · rw [toInt_32 _ hl, toInt_32 _ h8]
    by_cases h1 : length < 2 ^ 31
    · right
      have e8 : (length + 8) % 2 ^ 32 = length + 8 := Nat.mod_eq_of_lt (by omega)
      rw [e8]
      by_cases h2 : length + 8 < 2 ^ 31
      · right
        rw [if_pos h2]
        omega
      · left
        rw [if_neg h2]
        omega
    · left
      rw [if_neg h1]
      omega
  · right; right
    rw [toInt_64 _ h8, Nat.mod_eq_of_lt hno]
    omega

theorem parseLoop_truncated_witness :
    parseLoop 64 (0 + 1) ⟨[0, 0, 0, 5] ++ [1, 2, 3], []⟩ []
      = .ret (.error "Broken structure of chunk") ∧
    Parse 64 (bytesOf (Signature ++ [0, 0, 0, 5, 1, 2, 3]))
      = .ret (.error "Broken structure of chunk") :=
  ⟨parseLoop_truncated 64 0 ⟨[0, 0, 0, 5] ++ [1, 2, 3], []⟩ [] [0, 0, 0, 5] [1, 2, 3] 5
    (Or.inr ⟨rfl, by decide⟩) rfl rfl (by decide) (by decide), by decide⟩

/-! ## Declared lengths near 2^32 -/

/-- C2 at a failing input, 64-bit `int`: the signature followed by the length
field FF FF FF F8 and nothing else. The declared length is 0xFFFFFFF8 and fewer
than that plus 8 bytes remain, yet `length+8` wraps to 0 in `uint32`, the check
passes, and `Parse` panics in `Uint32` on the empty crc slice instead of
returning "Broken structure of chunk". With a 32-bit `int` the same input gets
the error. -/
theorem Parse_64_length_wraps :
    Uint32 [0xff, 0xff, 0xff, 0xf8] = .ret 0xFFFFFFF8 ∧
    (0xFFFFFFF8 + 8) % 2 ^ 32 = 0 ∧
    Parse 64 (bytesOf (Signature ++ [0xff, 0xff, 0xff, 0xf8])) = .panic "index out of range" ∧
    Parse 32 (bytesOf (Signature ++ [0xff, 0xff, 0xff, 0xf8]))
      = .ret (.error "Broken structure of chunk") := by
  decide

/-- C3 at a failing input, 64-bit `int`: a file whose IHDR chunk is followed by
the length field FF FF FF F9 and one byte. `Parse` panics: `Uint32` is called on
a slice of no bytes. With a 32-bit `int` the same input gets the error. -/
theorem Parse_64_panics :
    Parse 64 (bytesOf (Signature ++ ihdrBytes ++ [0xff, 0xff, 0xff, 0xf9, 0x00]))
      = .panic "index out of range" ∧
    Parse 32 (bytesOf (Signature ++ ihdrBytes ++ [0xff, 0xff, 0xff, 0xf9, 0x00]))
      = .ret (.error "Broken structure of chunk") := by
  decide

/-- With a 64-bit `int`, a declared length of 0xFFFFFFFC followed by four bytes
is accepted: `length+4` wraps to 0, `Data` is empty, the four bytes are read as
the crc, and `Type()` reads them again through the capacity of `Data`. -/
theorem Parse_64_empty_Data :
    Parse 64 (bytesOf (Signature ++ [0xff, 0xff, 0xff, 0xfc] ++ IEND))
      = .ret (.ok ⟨[⟨0xFFFFFFFC, ⟨[], IEND⟩, 0x49454E44⟩], ⟨[], []⟩⟩) := by
  decide

/-! ## The pHYs chunk builder -/

theorem PutUint32_eq_bigEndian32 (v : Nat) : PutUint32 v = bigEndian32 v := by
  simp only [PutUint32, bigEndian32, Nat.shiftRight_eq_div_pow]
  norm_num

theorem Uint32_PutUint32 (v : Nat) (hv : v < 2 ^ 32) : Uint32 (PutUint32 v) = .ret v := by
  simp only [PutUint32, Uint32_cons, byte, Nat.shiftRight_eq_div_pow]
  congr 1
  omega

/-- The model of `crc32.ChecksumIEEE` gives the check value of CRC-32/IEEE on
"123456789". -/
theorem ChecksumIEEE_check : ChecksumIEEE crcCheckInput = 0xCBF43926 := by decide

/-- C11: for all 32-bit `x`, `y` and every byte `unit`, `GenerateChunk` returns
a chunk with `Length = 9`, with `Data` of exactly 13 bytes, the ASCII bytes
"pHYs" followed by big-endian `x` (four bytes that decode to `x`), big-endian
`y` and `unit`, and with `Crc` the CRC-32 (IEEE) of those 13 bytes. -/
theorem GenerateChunk_layout (x y : Nat) (unit : Byte) (hx : x < 2 ^ 32) (hy : y < 2 ^ 32) :
    (GenerateChunk ⟨x, y, unit⟩).Length = 9 ∧
    (GenerateChunk ⟨x, y, unit⟩).Data.elems.length = 13 ∧
    (GenerateChunk ⟨x, y, unit⟩).Data.elems
      = pHYs ++ bigEndian32 x ++ bigEndian32 y ++ [unit] ∧
    (bigEndian32 x).length = 4 ∧ Uint32 (bigEndian32 x) = .ret x ∧
    (bigEndian32 y).length = 4 ∧ Uint32 (bigEndian32 y) = .ret y ∧
    (GenerateChunk ⟨x, y, unit⟩).Crc
      = ChecksumIEEE (pHYs ++ bigEndian32 x ++ bigEndian32 y ++ [unit]) ∧
    (GenerateChunk ⟨x, y, unit⟩).Type = .ret pHYs := by
  refine ⟨rfl, rfl, ?_, rfl, ?_, rfl, ?_, ?_, Type_GenerateChunk _⟩
  · simp only [GenerateChunk, PutUint32_eq_bigEndian32]
  · rw [← PutUint32_eq_bigEndian32]
    exact Uint32_PutUint32 x hx
  · rw [← PutUint32_eq_bigEndian32]
    exact Uint32_PutUint32 y hy
  · simp only [GenerateChunk, PutUint32_eq_bigEndian32]

theorem GenerateChunk_layout_witness :
    (GenerateChunk samplePhys).Data.elems
      = pHYs ++ [0x00, 0x00, 0x0b, 0x13, 0x00, 0x00, 0x0b, 0x13, 0x01] ∧
    (GenerateChunk samplePhys).Crc = 0x009a9c18 ∧
    enc (GenerateChunk samplePhys) = physBytes ∧
    ((GenerateChunk ⟨2835, 2835, 1⟩).Length = 9 ∧
    (GenerateChunk ⟨2835, 2835, 1⟩).Data.elems.length = 13 ∧
    (GenerateChunk ⟨2835, 2835, 1⟩).Data.elems
      = pHYs ++ bigEndian32 2835 ++ bigEndian32 2835 ++ [1] ∧
    (bigEndian32 2835).length = 4 ∧ Uint32 (bigEndian32 2835) = .ret 2835 ∧
    (bigEndian32 2835).length = 4 ∧ Uint32 (bigEndian32 2835) = .ret 2835 ∧
    (GenerateChunk ⟨2835, 2835, 1⟩).Crc
      = ChecksumIEEE (pHYs ++ bigEndian32 2835 ++ bigEndian32 2835 ++ [1]) ∧
    (GenerateChunk ⟨2835, 2835, 1⟩).Type = .ret pHYs) :=
  ⟨by decide, by decide, by decide, GenerateChunk_layout 2835 2835 1 (by decide) (by decide)⟩

/-! ## The resolution conversion of the caller -/

theorem ppm_eq (ppi : Nat) (n : Int) (h1 : 254 * (2 * n - 1) ≤ 20000 * (ppi : Int))
    (h2 : 20000 * (ppi : Int) < 254 * (2 * n + 1)) : ppm ppi = n := by
  unfold ppm
  rw [Int.floor_eq_iff]
  have e : ((ppi : ℚ) / (254 / 10000 : ℚ)) + (1 / 2 : ℚ)
      = ((20000 * (ppi : Int) + 254 : Int) : ℚ) / 508 := by
    push_cast
    field_simp
    ring
  rw [e]
  constructor
  · rw [le_div_iff₀ (by norm_num)]
    have : ((n * 508 : Int) : ℚ) ≤ ((20000 * (ppi : Int) + 254 : Int) : ℚ) := by
      exact_mod_cast (by omega : n * 508 ≤ 20000 * (ppi : Int) + 254)
    simpa using this
  · rw [div_lt_iff₀ (by norm_num)]
    have : ((20000 * (ppi : Int) + 254 : Int) : ℚ) < (((n + 1) * 508 : Int) : ℚ) := by
      exact_mod_cast (by omega : 20000 * (ppi : Int) + 254 < (n + 1) * 508)
    simpa using this

/-- C20 fails as stated: the conversion maps 96 pixels per inch to 3780 pixels
per metre, not to 2835. -/
theorem ppm_96 : ppm 96 = 3780 ∧ ppm 96 ≠ 2835 := by
  have h : ppm 96 = 3780 := ppm_eq 96 3780 (by norm_num) (by norm_num)
  exact ⟨h, by rw [h]; decide⟩

/-- C20 as the code has it: the conversion, round to nearest of `ppi / 0.0254`
over the exact rationals, maps 72 pixels per inch to 2835 pixels per metre, the
density of the spec's scenario; 96 pixels per inch give 3780. -/
theorem ppm_72 : ppm 72 = 2835 ∧ ppm 96 = 3780 :=
  ⟨ppm_eq 72 2835 (by norm_num) (by norm_num), ppm_eq 96 3780 (by norm_num) (by norm_num)⟩

/-! ## The signature check -/

/-- The only error the loop of `Parse` returns is "Broken structure of chunk". -/
theorem parseLoop_error (w fuel : Nat) (buf : Buffer) (acc : List Chunk) (e : String)
    (h : parseLoop w fuel buf acc = .ret (.error e)) : e = "Broken structure of chunk" := by
  induction fuel generalizing buf acc with
  | zero => simp [parseLoop] at h
  | succ fuel ih =>
    rw [parseLoop, Next_four] at h
    dsimp only at h
    split at h
    · cases h
    · split at h
      · cases h
        rfl
      · split at h
        · cases h
        · cases h
        · split at h
          · cases h
            rfl
          · split at h
            · cases h
            · cases h
            · split at h
              · cases h
              · cases h
              · split at h
                · cases h
                · cases h
                · split at h
                  · cases h
                  · cases h
                  · split at h
                    · cases h
                    · exact ih _ _ h

/-- C14: `Parse` returns the error "Incorrect signature" exactly when the first
eight bytes of the input are not 89 50 4E 47 0D 0A 1A 0A (so on every input
shorter than eight bytes), whatever the width of `int`: it returns it on every
such input and never when the first eight bytes are the signature. -/
theorem Parse_signature (w : Nat) (data : Slice) :
    Parse w data = .ret (.error "Incorrect signature") ↔ List.take 8 data.elems ≠ Signature := by
  rw [Parse_eq]
  constructor
  · intro h hsig
    rw [if_neg (not_not.mpr hsig)] at h
    split at h
    · cases h
    · cases h
    · rename_i e hloop
      have := parseLoop_error _ _ _ _ _ hloop
      simp only [Go.ret.injEq, Except.error.injEq] at h
      rw [this] at h
      exact absurd h (by decide)
    · rw [Next_natCast] at h
      cases h
  · intro hsig
    rw [if_pos hsig]

theorem Parse_short_input (w : Nat) (data : Slice) (h : data.elems.length < 8) :
    Parse w data = .ret (.error "Incorrect signature") := by
  rw [Parse_signature]
  intro e
  have := congrArg List.length e
  rw [List.length_take] at this
  simp only [Signature, List.length_cons, List.length_nil] at this
  omega

theorem Parse_signature_witness :
    Parse 64 (bytesOf [0x89, 0x50, 0x4e, 0x47, 0x0d, 0x0a, 0x1a]) = .ret (.error "Incorrect signature") ∧
    Parse 64 (bytesOf ([0x89, 0x50, 0x4e, 0x47, 0x0d, 0x0a, 0x1a, 0x0b] ++ iendBytes))
      = .ret (.error "Incorrect signature") ∧
    Parse 64 samplePNG ≠ .ret (.error "Incorrect signature") :=
  ⟨(Parse_signature 64 _).mpr (by decide), (Parse_signature 64 _).mpr (by decide),
    fun h => (Parse_signature 64 samplePNG).mp h (by decide)⟩

/-! ## The layout of the output -/

/-- C15: for every container, with nothing assumed of it, `Dump` succeeds and
returns the eight bytes of the signature, then for each chunk in order the
big-endian `Length` (4 bytes), `Data` as stored and the big-endian `Crc`
(4 bytes), then the trailer; the output has
`8 + sum of (8 + len(Data)) + len(trailer)` bytes. -/
theorem Dump_layout (img : Image) :
    Dump img = .ok (Signature ++
      (img.ChunkList.map (fun c => bigEndian32 c.Length ++ c.Data.elems ++ bigEndian32 c.Crc)).flatten
      ++ img.Trailer.elems) ∧
    Signature.length = 8 ∧
    (∀ v, (bigEndian32 v).length = 4) ∧
    (Signature ++
      (img.ChunkList.map (fun c => bigEndian32 c.Length ++ c.Data.elems ++ bigEndian32 c.Crc)).flatten
      ++ img.Trailer.elems).length
      = 8 + (img.ChunkList.map (fun c => 8 + c.Data.len)).sum + img.Trailer.len := by
  refine ⟨?_, rfl, fun _ => rfl, ?_⟩
  · rw [Dump_eq]
    have : enc = fun c => bigEndian32 c.Length ++ c.Data.elems ++ bigEndian32 c.Crc := by
      funext c
      simp only [enc, PutUint32_eq_bigEndian32]
    simp only [encs, this]
  · simp only [List.length_append, Slice.len]
    have hs : Signature.length = 8 := rfl
    rw [hs]
    congr 2
    induction img.ChunkList with
    | nil => rfl
    | cons c cs ih =>
      simp only [List.map_cons, List.flatten_cons, List.length_append, List.sum_cons, ih]
      have h4 : ∀ v, (bigEndian32 v).length = 4 := fun _ => rfl
      rw [h4, h4]
      omega

/-! ## The shape of a parsed container -/

/-- How a run of the loop that ends well has ended: at the end of the input,
having appended no IEND chunk, or right after appending an IEND chunk, the only
one it appended. -/
theorem parseLoop_shape (w fuel : Nat) (buf buf' : Buffer) (acc cl : List Chunk)
    (h : parseLoop w fuel buf acc = .ret (.ok (cl, buf'))) :
    ∃ new, cl = acc ++ new ∧
      ((buf'.unread = [] ∧ NoType new IEND) ∨
       (∃ init last, new = init ++ [last] ∧ NoType init IEND ∧ last.Type = .ret IEND)) := by
  induction fuel generalizing buf acc with
  | zero => simp [parseLoop] at h
  | succ fuel ih =>
    rcases parseLoop_succ_ok w fuel buf buf' acc cl h with
      ⟨hu, hcl, hb⟩ | ⟨chunk, t, rest, _, ht, ⟨hend, hcl, _⟩ | ⟨hne, hrec⟩⟩
    · refine ⟨[], by simp [hcl], Or.inl ⟨by rw [hb]; exact hu, ?_⟩⟩
      intro c hc
      cases hc
    · refine ⟨[chunk], hcl, Or.inr ⟨[], chunk, rfl, ?_, hend ▸ ht⟩⟩
      intro c hc
      cases hc
    · obtain ⟨new, hcl, hshape⟩ := ih _ _ hrec
      have hchunk : chunk.Type ≠ .ret IEND := by
        rw [ht]
        intro e
        cases e
        exact hne rfl
      refine ⟨chunk :: new, by simp [hcl], ?_⟩
      rcases hshape with ⟨hu, hno⟩ | ⟨init, last, hnew, hno, hlast⟩
      · left
        refine ⟨hu, ?_⟩
        intro c hc
        rcases List.mem_cons.mp hc with rfl | hc
        · exact hchunk
        · exact hno c hc
      · right
        refine ⟨chunk :: init, last, by simp [hnew], ?_, hlast⟩
        intro c hc
        rcases List.mem_cons.mp hc with rfl | hc
        · exact hchunk
        · exact hno c hc

theorem countType_NoType (tag : List Byte) (l : List Chunk) (h : NoType l tag) :
    countType tag l = 0 := by
  rw [countType, List.countP_eq_zero]
  intro x hx
  simpa using h x hx

/-- C19: in every container that `Parse` returns, a chunk of type "IEND" can
only be the last element of the chunk sequence, so there is at most one; and if
the trailer is not empty, the sequence is not empty and its last chunk has type
"IEND". -/
theorem Parse_shape (w : Nat) (b : Slice) (c : Image) (h : Parse w b = .ret (.ok c)) :
    (∀ i, TypeAt c.ChunkList i IEND → i + 1 = c.ChunkList.length) ∧
    countType IEND c.ChunkList ≤ 1 ∧
    (c.Trailer.elems ≠ [] →
      ∃ last, c.ChunkList.getLast? = some last ∧ last.Type = .ret IEND) := by
  rw [Parse_eq] at h
  split at h
  · cases h
  · split at h
    · cases h
    · cases h
    · cases h
    · rename_i cl buf hloop
      rw [Next_natCast] at h
      simp only [Go.ret.injEq, Except.ok.injEq] at h
      subst h
      obtain ⟨new, hcl, hshape⟩ := parseLoop_shape _ _ _ _ _ _ hloop
      rw [List.nil_append] at hcl
      subst hcl
      dsimp only
      rcases hshape with ⟨hu, hno⟩ | ⟨init, last, hnew, hno, hlast⟩
      · refine ⟨?_, ?_, ?_⟩
        · intro i hi
          obtain ⟨x, hx, hxt⟩ := TypeAt_mem _ _ _ hi
          exact absurd hxt (hno x hx)
        · rw [countType_NoType _ _ hno]
          omega
        · intro htr
          simp [Buffer.Len, hu] at htr
      · subst hnew
        refine ⟨?_, ?_, ?_⟩
        · intro i hi
          by_cases hlt : i < init.length
          · rw [TypeAt_append_left _ _ _ _ hlt] at hi
            obtain ⟨x, hx, hxt⟩ := TypeAt_mem _ _ _ hi
            exact absurd hxt (hno x hx)
          · have := TypeAt_lt _ _ _ hi
            simp only [List.length_append, List.length_singleton] at this ⊢
            omega
        · have := countType_split IEND init last []
          rw [if_pos hlast, countType_NoType _ _ hno] at this
          rw [this]
          simp [countType]
        · intro _
          exact ⟨last, by simp, hlast⟩

theorem Parse_shape_witness :
    Parse 64 samplePNG = .ret (.ok (parsed 64 samplePNG)) ∧
    (parsed 64 samplePNG).Trailer.elems = [0x0d, 0x0a] ∧
    ((∀ i, TypeAt (parsed 64 samplePNG).ChunkList i IEND →
        i + 1 = (parsed 64 samplePNG).ChunkList.length) ∧
    countType IEND (parsed 64 samplePNG).ChunkList ≤ 1 ∧
    ((parsed 64 samplePNG).Trailer.elems ≠ [] →
      ∃ last, (parsed 64 samplePNG).ChunkList.getLast? = some last ∧ last.Type = .ret IEND)) :=
  ⟨by decide, by decide, Parse_shape 64 samplePNG (parsed 64 samplePNG) (by decide)⟩

/-! ## The two versions of `dump` -/

theorem ImageGo_Write_error {σ : Type} (W : Writer σ) (s : σ) (e : String) (p : List Byte) :
    ImageGo.WriterWithError.Write W ⟨s, some e⟩ p = ⟨s, some e⟩ := rfl

theorem ImageGo_dumpChunks_error {σ : Type} (W : Writer σ) (s : σ) (e : String)
    (l : List Chunk) : ImageGo.dumpChunks W ⟨s, some e⟩ l = ⟨s, some e⟩ := by
  induction l with
  | nil => rfl
  | cons c cs ih =>
    simp only [ImageGo.dumpChunks, ImageGo_Write_error, ih]

theorem ImageGo_dumpChunks_eq {σ : Type} (W : Writer σ) (s : σ) (l : List Chunk) :
    ImageGo.dumpChunks W ⟨s, none⟩ l = ⟨(dumpChunks W s l).1, (dumpChunks W s l).2⟩ := by
  induction l generalizing s with
  | nil => rfl
  | cons c cs ih =>
    rcases h1 : W.Write s (PutUint32 c.Length) with ⟨s1, n1, e1⟩
    rcases h2 : W.Write s1 c.Data.elems with ⟨s2, n2, e2⟩
    rcases h3 : W.Write s2 (PutUint32 c.Crc) with ⟨s3, n3, e3⟩
    simp only [ImageGo.dumpChunks, dumpChunks, ImageGo.WriterWithError.Write, h1]
    by_cases c1 : n1 ≠ (PutUint32 c.Length).length ∨ e1 ≠ none
    · simp only [if_pos c1, ImageGo_dumpChunks_error]
    · simp only [if_neg c1, h2, Slice.len]
      by_cases c2 : n2 ≠ c.Data.elems.length ∨ e2 ≠ none
      · simp only [if_pos c2, ImageGo_dumpChunks_error]
      · simp only [if_neg c2, h3]
        by_cases c3 : n3 ≠ (PutUint32 c.Crc).length ∨ e3 ≠ none
        · simp only [if_pos c3, ImageGo_dumpChunks_error]
        · simp only [if_neg c3, ih]

/-- The `dump` of image.go, with `WriterWithError` as modelled, makes the same
calls to the sink and returns the same error as the `dump` of png.go. -/
theorem ImageGo_dump_eq {σ : Type} (W : Writer σ) (s : σ) (img : Image) :
    ImageGo.dump W s img = dump W s img := by
  rcases h0 : W.Write s Signature with ⟨s0, n0, e0⟩
  simp only [ImageGo.dump, dump, ImageGo.WriterWithError.Write, h0]
  by_cases c0 : n0 ≠ Signature.length ∨ e0 ≠ none
  · simp only [if_pos c0, ImageGo_dumpChunks_error]
  · simp only [if_neg c0, ImageGo_dumpChunks_eq]
    rcases h1 : dumpChunks W s0 img.ChunkList with ⟨s1, _ | e1⟩
    · rcases h2 : W.Write s1 img.Trailer.elems with ⟨s2, n2, e2⟩
      simp only [h2, Slice.len]
      by_cases c2 : n2 ≠ img.Trailer.elems.length ∨ e2 ≠ none
      · simp only [if_pos c2]
      · simp only [if_neg c2]
    · rfl

/-! ## Short writes -/

theorem StopsAtFailure_cons (c : WriteCall) (calls : List WriteCall) (err : Option String)
    (hc : c.complete) (h : StopsAtFailure calls err) : StopsAtFailure (c :: calls) err := by
  rcases h with ⟨he, hall⟩ | ⟨pre, x, hcalls, hpre, hx, he⟩
  · left
    refine ⟨he, ?_⟩
    intro y hy
    rcases List.mem_cons.mp hy with rfl | hy
    · exact hc
    · exact hall y hy
  · right
    refine ⟨c :: pre, x, by simp [hcalls], ?_, hx, he⟩
    intro y hy
    rcases List.mem_cons.mp hy with rfl | hy
    · exact hc
    · exact hpre y hy

theorem StopsAtFailure_fail (c : WriteCall) (hc : ¬ c.complete) :
    StopsAtFailure [c] (some (createWriteError c.err)) :=
  Or.inr ⟨[], c, rfl, by simp, hc, rfl⟩

theorem logged_Write {σ : Type} (W : Writer σ) (s : σ) (log : List WriteCall) (p : List Byte) :
    (logged W).Write (s, log) p
      = ((((W.Write s p).1, log ++ [⟨p, (W.Write s p).2.1, (W.Write s p).2.2⟩])),
          (W.Write s p).2.1, (W.Write s p).2.2) := rfl

theorem complete_mk (p : List Byte) (n : Nat) (e : Option String) :
    WriteCall.complete ⟨p, n, e⟩ ↔ ¬ (n ≠ p.length ∨ e ≠ none) := by
  simp only [WriteCall.complete, not_or, not_not]

theorem dumpChunks_logged {σ : Type} (W : Writer σ) (s : σ) (log : List WriteCall)
    (l : List Chunk) :
    ∃ new, (dumpChunks (logged W) (s, log) l).1.2 = log ++ new ∧
      StopsAtFailure new (dumpChunks (logged W) (s, log) l).2 ∧
      (dumpChunks (logged W) (s, log) l).1.1 = (dumpChunks W s l).1 ∧
      (dumpChunks (logged W) (s, log) l).2 = (dumpChunks W s l).2 := by
  induction l generalizing s log with
  | nil => exact ⟨[], by simp [dumpChunks], Or.inl ⟨rfl, by simp⟩, rfl, rfl⟩
  | cons c cs ih =>
    rcases h1 : W.Write s (PutUint32 c.Length) with ⟨s1, n1, e1⟩
    rcases h2 : W.Write s1 c.Data.elems with ⟨s2, n2, e2⟩
    rcases h3 : W.Write s2 (PutUint32 c.Crc) with ⟨s3, n3, e3⟩
    by_cases c1 : n1 ≠ (PutUint32 c.Length).length ∨ e1 ≠ none
    · have hL : dumpChunks (logged W) (s, log) (c :: cs)
          = ((s1, log ++ [⟨PutUint32 c.Length, n1, e1⟩]), some (createWriteError e1)) := by
        simp only [dumpChunks, logged_Write, h1, if_pos c1]
      have hP : dumpChunks W s (c :: cs) = (s1, some (createWriteError e1)) := by
        simp only [dumpChunks, h1, if_pos c1]
      rw [hL, hP]
      exact ⟨[⟨PutUint32 c.Length, n1, e1⟩], rfl,
        StopsAtFailure_fail _ (fun h => (complete_mk _ _ _).mp h c1), rfl, rfl⟩
    · by_cases c2 : n2 ≠ c.Data.elems.length ∨ e2 ≠ none
      · have hL : dumpChunks (logged W) (s, log) (c :: cs)
            = ((s2, log ++ [⟨PutUint32 c.Length, n1, e1⟩] ++ [⟨c.Data.elems, n2, e2⟩]),
                some (createWriteError e2)) := by
          simp only [dumpChunks, logged_Write, h1, if_neg c1, h2, Slice.len, if_pos c2]
        have hP : dumpChunks W s (c :: cs) = (s2, some (createWriteError e2)) := by
          simp only [dumpChunks, h1, if_neg c1, h2, Slice.len, if_pos c2]
        rw [hL, hP]
        exact ⟨[⟨PutUint32 c.Length, n1, e1⟩, ⟨c.Data.elems, n2, e2⟩], by simp,
          StopsAtFailure_cons _ _ _ ((complete_mk _ _ _).mpr c1)
            (StopsAtFailure_fail _ (fun h => (complete_mk _ _ _).mp h c2)), rfl, rfl⟩
      · by_cases c3 : n3 ≠ (PutUint32 c.Crc).length ∨ e3 ≠ none
        · have hL : dumpChunks (logged W) (s, log) (c :: cs)
              = ((s3, log ++ [⟨PutUint32 c.Length, n1, e1⟩] ++ [⟨c.Data.elems, n2, e2⟩]
                  ++ [⟨PutUint32 c.Crc, n3, e3⟩]), some (createWriteError e3)) := by
            simp only [dumpChunks, logged_Write, h1, if_neg c1, h2, Slice.len, if_neg c2, h3,
              if_pos c3]
          have hP : dumpChunks W s (c :: cs) = (s3, some (createWriteError e3)) := by
            simp only [dumpChunks, h1, if_neg c1, h2, Slice.len, if_neg c2, h3, if_pos c3]
          rw [hL, hP]
          exact ⟨[⟨PutUint32 c.Length, n1, e1⟩, ⟨c.Data.elems, n2, e2⟩,
            ⟨PutUint32 c.Crc, n3, e3⟩], by simp,
            StopsAtFailure_cons _ _ _ ((complete_mk _ _ _).mpr c1)
              (StopsAtFailure_cons _ _ _ ((complete_mk _ _ _).mpr c2)
                (StopsAtFailure_fail _ (fun h => (complete_mk _ _ _).mp h c3))), rfl, rfl⟩
        · have hL : dumpChunks (logged W) (s, log) (c :: cs)
              = dumpChunks (logged W) (s3, log ++ [⟨PutUint32 c.Length, n1, e1⟩]
                  ++ [⟨c.Data.elems, n2, e2⟩] ++ [⟨PutUint32 c.Crc, n3, e3⟩]) cs := by
            simp only [dumpChunks, logged_Write, h1, if_neg c1, h2, Slice.len, if_neg c2, h3,
              if_neg c3]
          have hP : dumpChunks W s (c :: cs) = dumpChunks W s3 cs := by
            simp only [dumpChunks, h1, if_neg c1, h2, Slice.len, if_neg c2, h3, if_neg c3]
          rw [hL, hP]
          obtain ⟨new, hlog, hstop, hs, he⟩ := ih s3
            (log ++ [⟨PutUint32 c.Length, n1, e1⟩] ++ [⟨c.Data.elems, n2, e2⟩]
              ++ [⟨PutUint32 c.Crc, n3, e3⟩])
          refine ⟨⟨PutUint32 c.Length, n1, e1⟩ :: ⟨c.Data.elems, n2, e2⟩
            :: ⟨PutUint32 c.Crc, n3, e3⟩ :: new, ?_, ?_, hs, he⟩
          · rw [hlog]
            simp
          · exact StopsAtFailure_cons _ _ _ ((complete_mk _ _ _).mpr c1)
              (StopsAtFailure_cons _ _ _ ((complete_mk _ _ _).mpr c2)
                (StopsAtFailure_cons _ _ _ ((complete_mk _ _ _).mpr c3) hstop))

theorem dump_logged {σ : Type} (W : Writer σ) (s : σ) (img : Image) :
    ∃ calls, (dump (logged W) (s, []) img).1.2 = calls ∧
      StopsAtFailure calls (dump (logged W) (s, []) img).2 ∧
      (dump (logged W) (s, []) img).1.1 = (dump W s img).1 ∧
      (dump (logged W) (s, []) img).2 = (dump W s img).2 := by
  rcases h0 : W.Write s Signature with ⟨s0, n0, e0⟩
  by_cases c0 : n0 ≠ Signature.length ∨ e0 ≠ none
  · have hL : dump (logged W) (s, []) img
        = ((s0, [⟨Signature, n0, e0⟩]), some (createWriteError e0)) := by
      simp only [dump, logged_Write, h0, if_pos c0, List.nil_append]
    have hP : dump W s img = (s0, some (createWriteError e0)) := by
      simp only [dump, h0, if_pos c0]
    rw [hL, hP]
    exact ⟨_, rfl, StopsAtFailure_fail _ (fun h => (complete_mk _ _ _).mp h c0), rfl, rfl⟩
  · have hc0 : WriteCall.complete ⟨Signature, n0, e0⟩ := (complete_mk _ _ _).mpr c0
    obtain ⟨new, hlog, hstop, hs, he⟩ :=
      dumpChunks_logged W s0 [⟨Signature, n0, e0⟩] img.ChunkList
    rcases hLc : dumpChunks (logged W) (s0, [⟨Signature, n0, e0⟩]) img.ChunkList with
      ⟨⟨sL, logL⟩, errL⟩
    rcases hPc : dumpChunks W s0 img.ChunkList with ⟨sP, errP⟩
    rw [hLc, hPc] at hs he
    rw [hLc] at hlog hstop
    dsimp only at hs he hlog hstop
    subst hs he hlog
    cases errL with
    | some e =>
      have hL : dump (logged W) (s, []) img
          = ((sL, [⟨Signature, n0, e0⟩] ++ new), some e) := by
        simp only [dump, logged_Write, h0, if_neg c0, List.nil_append, hLc]
      have hP : dump W s img = (sL, some e) := by
        simp only [dump, h0, if_neg c0, hPc]
      rw [hL, hP]
      exact ⟨_, rfl, StopsAtFailure_cons _ _ _ hc0 hstop, rfl, rfl⟩
    | none =>
      rcases h2 : W.Write sL img.Trailer.elems with ⟨s2, n2, e2⟩
      have hall : ∀ c ∈ new, c.complete := by
        rcases hstop with ⟨_, hall⟩ | ⟨_, _, _, _, _, he⟩
        · exact hall
        · cases he
      by_cases c2 : n2 ≠ img.Trailer.elems.length ∨ e2 ≠ none
      · have hL : dump (logged W) (s, []) img
            = ((s2, [⟨Signature, n0, e0⟩] ++ new ++ [⟨img.Trailer.elems, n2, e2⟩]),
                some (createWriteError e2)) := by
          simp only [dump, logged_Write, h0, if_neg c0, List.nil_append, hLc, h2, Slice.len,
            if_pos c2]
        have hP : dump W s img = (s2, some (createWriteError e2)) := by
          simp only [dump, h0, if_neg c0, hPc, h2, Slice.len, if_pos c2]
        rw [hL, hP]
        refine ⟨_, rfl, Or.inr ⟨[⟨Signature, n0, e0⟩] ++ new, ⟨img.Trailer.elems, n2, e2⟩,
          rfl, ?_, fun h => (complete_mk _ _ _).mp h c2, rfl⟩, rfl, rfl⟩
        intro x hx
        rcases List.mem_append.mp hx with hx | hx
        · rw [List.mem_singleton] at hx
          exact hx ▸ hc0
        · exact hall x hx
      · have hL : dump (logged W) (s, []) img
            = ((s2, [⟨Signature, n0, e0⟩] ++ new ++ [⟨img.Trailer.elems, n2, e2⟩]), none) := by
          simp only [dump, logged_Write, h0, if_neg c0, List.nil_append, hLc, h2, Slice.len,
            if_neg c2]
        have hP : dump W s img = (s2, none) := by
          simp only [dump, h0, if_neg c0, hPc, h2, Slice.len, if_neg c2]
        rw [hL, hP]
        refine ⟨_, rfl, Or.inl ⟨rfl, ?_⟩, rfl, rfl⟩
        intro x hx
        rcases List.mem_append.mp hx with hx | hx
        · rcases List.mem_append.mp hx with hx | hx
          · rw [List.mem_singleton] at hx
            exact hx ▸ hc0
          · exact hall x hx
        · rw [List.mem_singleton] at hx
          exact hx ▸ (complete_mk _ _ _).mpr c2

theorem StopsAtFailure_last (calls pre post : List WriteCall) (c : WriteCall)
    (err : Option String) (h : StopsAtFailure calls err) (hsplit : calls = pre ++ c :: post)
    (hc : ¬ c.complete) : post = [] ∧ err = some (createWriteError c.err) := by
  rcases h with ⟨_, hall⟩ | ⟨pre', x, hcalls, hpre, _, he⟩
  · exact absurd (hall c (by rw [hsplit]; simp)) hc
  · rw [hsplit] at hcalls
    rcases List.eq_nil_or_concat post with hp | ⟨init, y, hp⟩
    · subst hp
      have := List.append_inj' hcalls rfl
      simp only [List.cons.injEq, and_true] at this
      rw [this.2]
      exact ⟨rfl, he⟩
    · exfalso
      rw [hp, List.concat_eq_append, ← List.cons_append, ← List.append_assoc] at hcalls
      have := List.append_inj' hcalls rfl
      exact hc (hpre c (by rw [← this.1]; simp))

/-- C18: with the sink a function that returns the count of bytes written and an
error, and with the calls made to it on record: `dump` returns nil exactly when
every write it issued was complete and free of error; a write that returned
fewer bytes than requested or an error is the last write issued, and `dump`
then returns an error, "short write" (`io.ErrShortWrite`) when the sink reported
none and the error of the sink otherwise. The record changes nothing in what
`dump` does, and the `dump` of image.go does the same. -/
theorem dump_short_write {σ : Type} (W : Writer σ) (s : σ) (img : Image) :
    ((dump (logged W) (s, []) img).2 = none ↔
      ∀ c ∈ (dump (logged W) (s, []) img).1.2, c.complete) ∧
    (∀ pre c post, (dump (logged W) (s, []) img).1.2 = pre ++ c :: post → ¬ c.complete →
      post = [] ∧ (dump (logged W) (s, []) img).2 = some (createWriteError c.err)) ∧
    createWriteError none = "short write" ∧
    (∀ e, createWriteError (some e) = e) ∧
    dump W s img = ((dump (logged W) (s, []) img).1.1, (dump (logged W) (s, []) img).2) ∧
    ImageGo.dump (logged W) (s, []) img = dump (logged W) (s, []) img := by
  obtain ⟨calls, hcalls, hstop, hs, he⟩ := dump_logged W s img
  refine ⟨?_, ?_, rfl, fun _ => rfl, ?_, ImageGo_dump_eq _ _ _⟩
  · rw [hcalls]
    rcases hstop with ⟨hnone, hall⟩ | ⟨pre, c, hsplit, _, hc, herr⟩
    · exact ⟨fun _ => hall, fun _ => hnone⟩
    · constructor
      · intro h
        rw [herr] at h
        cases h
      · intro hall
        exact absurd (hall c (by rw [hsplit]; simp)) hc
  · intro pre c post hsplit hc
    rw [hcalls] at hsplit
    exact StopsAtFailure_last calls pre post c _ hstop hsplit hc
  · rw [hs, he]

theorem dump_short_write_witness :
    dump (logged shortSink) ((20, []), []) (parsed 64 samplePNG)
      = (((0, Signature ++ [0x00, 0x00, 0x00, 0x0d] ++ [0x49, 0x48, 0x44, 0x52, 0x00, 0x00, 0x00, 0x01]),
          [⟨Signature, 8, none⟩, ⟨[0x00, 0x00, 0x00, 0x0d], 4, none⟩,
           ⟨[0x49, 0x48, 0x44, 0x52, 0x00, 0x00, 0x00, 0x01, 0x00, 0x00, 0x00, 0x01,
             0x08, 0x00, 0x00, 0x00, 0x00], 8, none⟩]), some "short write") ∧
    (dump (logged shortSink) ((100, []), []) (parsed 64 samplePNG)).2 = none ∧
    ((dump (logged shortSink) ((20, []), []) (parsed 64 samplePNG)).2 = none ↔
      ∀ c ∈ (dump (logged shortSink) ((20, []), []) (parsed 64 samplePNG)).1.2, c.complete) :=
  ⟨by decide, by decide, (dump_short_write shortSink (20, []) (parsed 64 samplePNG)).1⟩

/-- The `dump` of image.go into a `bytes.Buffer` writes the same bytes as `Dump`
returns. -/
theorem ImageGo_dump_buffer (img : Image) :
    ImageGo.dump bufferWriter [] img
      = (Signature ++ encs img.ChunkList ++ img.Trailer.elems, none) := by
  rw [ImageGo_dump_eq]
  have h := Dump_eq img
  unfold Dump at h
  rcases hd : dump bufferWriter [] img with ⟨buf, _ | e⟩
  · rw [hd] at h
    simp only [Except.ok.injEq] at h
    rw [h]
  · rw [hd] at h
    cases h

/-! ## Parsing the encoding of a chunk -/

theorem toInt_InRange (w L x : Nat) (hr : InRange w L) (hx : x ≤ L + 8) :
    toInt w x = (x : Int) := by
  rcases hr with ⟨rfl, h⟩ | ⟨rfl, h⟩
  · rw [toInt_32 x (by omega), if_pos (by omega)]
  · exact toInt_64 x (by omega)

theorem InRange_lt (w L : Nat) (hr : InRange w L) : L + 8 < 2 ^ 32 := by
  rcases hr with ⟨_, h⟩ | ⟨_, h⟩ <;> omega

theorem Type_view (c : Chunk) (after : List Byte) (h : 4 ≤ c.Data.len) :
    (c.view after).Type = .ret c.tag := by
  unfold Slice.len at h
  simp only [Chunk.Type, Chunk.view, Slice.cap, Chunk.tag]
  rw [if_pos (by omega), List.take_append_of_le_length h]

theorem value_view (c : Chunk) (after : List Byte) : (c.view after).value = c.value := rfl

/-- One iteration of the loop on the encoding of a well-formed chunk whose
declared length is in range: the chunk is appended with its values, and the
loop goes on after it unless its tag is "IEND". -/
theorem parseLoop_step (w fuel : Nat) (c : Chunk) (rest sp : List Byte) (acc : List Chunk)
    (hwf : c.WellFormed) (hr : InRange w c.Length) :
    parseLoop w (fuel + 1) ⟨enc c ++ rest, sp⟩ acc =
      if c.tag = IEND then
        .ret (.ok (acc ++ [c.view (PutUint32 c.Crc ++ (rest ++ sp))], ⟨rest, sp⟩))
      else parseLoop w fuel ⟨rest, sp⟩ (acc ++ [c.view (PutUint32 c.Crc ++ (rest ++ sp))]) := by
  obtain ⟨hlen, hL, hC⟩ := hwf
  unfold Slice.len at hlen
  have h32 := InRange_lt w c.Length hr
  have hL4 : (PutUint32 c.Length).length = 4 := rfl
  have hC4 : (PutUint32 c.Crc).length = 4 := rfl
  have hsplit : enc c ++ rest = PutUint32 c.Length ++ (c.Data.elems ++ (PutUint32 c.Crc ++ rest)) := by
    simp only [enc, List.append_assoc]
  have htake : List.take 4 (enc c ++ rest) = PutUint32 c.Length := by
    rw [hsplit, ← hL4, List.take_left]
  have hdrop : List.drop 4 (enc c ++ rest) = c.Data.elems ++ (PutUint32 c.Crc ++ rest) := by
    rw [hsplit, ← hL4, List.drop_left]
  have htake2 : List.take (c.Length + 4) (c.Data.elems ++ (PutUint32 c.Crc ++ rest))
      = c.Data.elems := by
    rw [← hlen, List.take_left]
  have hdrop2 : List.drop (c.Length + 4) (c.Data.elems ++ (PutUint32 c.Crc ++ rest))
      = PutUint32 c.Crc ++ rest := by
    rw [← hlen, List.drop_left]
  have htake3 : List.take 4 (PutUint32 c.Crc ++ rest) = PutUint32 c.Crc := by
    rw [← hC4, List.take_left]
  have hdrop3 : List.drop 4 (PutUint32 c.Crc ++ rest) = rest := by
    rw [← hC4, List.drop_left]
  have e8 : (c.Length + 8) % 2 ^ 32 = c.Length + 8 := Nat.mod_eq_of_lt h32
  have e4 : (c.Length + 4) % 2 ^ 32 = c.Length + 4 := Nat.mod_eq_of_lt (by omega)
  have hcheck : ¬ (toInt w c.Length < 0 ∨ toInt w ((c.Length + 8) % 2 ^ 32) < 0
      ∨ ((Buffer.Len ⟨c.Data.elems ++ (PutUint32 c.Crc ++ rest), sp⟩ : Nat) : Int)
          < toInt w ((c.Length + 8) % 2 ^ 32)) := by
    rw [e8, toInt_InRange w c.Length _ hr (by omega), toInt_InRange w c.Length _ hr (le_refl _)]
    simp only [Buffer.Len, List.length_append, hC4]
    omega
  rw [parseLoop, Next_four]
  dsimp only
  rw [htake, hdrop]
  simp only [Slice.len, hL4]
  rw [if_neg (by decide), if_neg (by decide), Uint32_PutUint32 _ hL]
  dsimp only
  rw [if_neg hcheck, e4, toInt_InRange w c.Length _ hr (by omega), Next_natCast]
  dsimp only
  rw [htake2, hdrop2, Next_four]
  dsimp only
  rw [htake3, hdrop3, Uint32_PutUint32 _ hC]
  dsimp only
  have hT := Type_view c (PutUint32 c.Crc ++ rest ++ sp) (by unfold Slice.len; omega)
  simp only [Chunk.view] at hT
  rw [hT]
  simp only [Chunk.view, List.append_assoc]

theorem parseLoop_nil (w fuel : Nat) (sp : List Byte) (acc : List Chunk) :
    parseLoop w (fuel + 1) ⟨[], sp⟩ acc = .ret (.ok (acc, ⟨[], sp⟩)) := by
  rw [parseLoop, Next_four]
  rfl

theorem parseLoop_short (w fuel : Nat) (extra sp : List Byte) (acc : List Chunk)
    (h1 : 1 ≤ extra.length) (h3 : extra.length ≤ 3) :
    parseLoop w (fuel + 1) ⟨extra, sp⟩ acc = .ret (.error "Broken structure of chunk") := by
  rw [parseLoop, Next_four]
  dsimp only
  have hl : (List.take 4 extra).length = extra.length := by
    rw [List.length_take]
    omega
  simp only [Slice.len, hl]
  rw [if_neg (by omega), if_pos (by omega)]

theorem encs_length_le (cs : List Chunk) : cs.length ≤ (encs cs).length := by
  induction cs with
  | nil => simp [encs]
  | cons c cs ih =>
    rw [encs_cons]
    simp only [List.length_append, List.length_cons, enc, PutUint32_length]
    omega

/-- The loop on the encodings of well-formed chunks in range, none of type
"IEND": all are appended, and the loop goes on after them. -/
theorem parseLoop_chunks (w fuel : Nat) (cs : List Chunk) (tail sp : List Byte)
    (acc : List Chunk)
    (hcs : ∀ c ∈ cs, c.WellFormed ∧ InRange w c.Length ∧ c.tag ≠ IEND)
    (hf : cs.length < fuel) :
    parseLoop w fuel ⟨encs cs ++ tail, sp⟩ acc
      = parseLoop w (fuel - cs.length) ⟨tail, sp⟩ (acc ++ views cs (tail ++ sp)) := by
  induction cs generalizing fuel acc with
  | nil => simp [encs, views]
  | cons c cs ih =>
    obtain ⟨hwf, hr, htag⟩ := hcs c (List.mem_cons_self _ _)
    obtain ⟨f, rfl⟩ : ∃ f, fuel = f + 1 := ⟨fuel - 1, by simp at hf; omega⟩
    rw [encs_cons, List.append_assoc, parseLoop_step w f c _ sp acc hwf hr, if_neg htag,
      ih f _ (fun x hx => hcs x (List.mem_cons_of_mem _ hx)) (by simp at hf; omega)]
    simp only [views, List.length_cons, List.append_assoc, List.singleton_append,
      Nat.add_sub_add_right]

theorem views_value (cs : List Chunk) (tail : List Byte) :
    (views cs tail).map Chunk.value = cs.map Chunk.value := by
  induction cs with
  | nil => rfl
  | cons c cs ih => simp only [views, List.map_cons, value_view, ih]

/-! ## Parsing a file made of encoded chunks -/

theorem take_Signature (x : List Byte) : List.take 8 (Signature ++ x) = Signature :=
  List.take_left Signature x

theorem drop_Signature (x : List Byte) : List.drop 8 (Signature ++ x) = x :=
  List.drop_left Signature x

theorem Parse_of_loop (w : Nat) (data : Slice) (cl : List Chunk) (buf : Buffer)
    (hsig : List.take 8 data.elems = Signature)
    (hloop : parseLoop w (data.len + 1) ⟨List.drop 8 data.elems, data.spare⟩ []
      = .ret (.ok (cl, buf))) :
    Parse w data = .ret (.ok ⟨cl, ⟨buf.unread, buf.spare⟩⟩) := by
  rw [Parse_eq, if_neg (not_not.mpr hsig), hloop]
  dsimp only
  rw [Next_natCast]
  simp [Buffer.Len]

theorem Parse_of_loop_error (w : Nat) (data : Slice) (e : String)
    (hsig : List.take 8 data.elems = Signature)
    (hloop : parseLoop w (data.len + 1) ⟨List.drop 8 data.elems, data.spare⟩ []
      = .ret (.error e)) :
    Parse w data = .ret (.error e) := by
  rw [Parse_eq, if_neg (not_not.mpr hsig), hloop]

/-- The fuel that `Parse` gives the loop is more than the number of chunks. -/
theorem fuel_enough (cs : List Chunk) (tail : List Byte) :
    ∃ k, (Signature ++ (encs cs ++ tail)).length + 1 - cs.length = k + 1 ∧
      cs.length < (Signature ++ (encs cs ++ tail)).length + 1 := by
  have := encs_length_le cs
  refine ⟨(Signature ++ (encs cs ++ tail)).length - cs.length, ?_, ?_⟩ <;>
    simp only [List.length_append] <;> omega

/-- Early stop at IEND, where the bounds check does not wrap: for well-formed
chunks `cs` in range, none of type "IEND", a well-formed chunk `e` in range of
type "IEND" and any bytes `g`, `Parse` of signature, encodings and `g` returns
the chunks `cs ++ [e]` with their values and the trailer `g`, whatever the
stored crc values are. -/
theorem Parse_stops_at_IEND (w : Nat) (cs : List Chunk) (e : Chunk) (g sp : List Byte)
    (hcs : ∀ c ∈ cs, c.WellFormed ∧ InRange w c.Length ∧ c.tag ≠ IEND)
    (he : e.WellFormed ∧ InRange w e.Length ∧ e.tag = IEND) :
    ∃ img, Parse w ⟨Signature ++ encs cs ++ enc e ++ g, sp⟩ = .ret (.ok img) ∧
      img.ChunkList.map Chunk.value = (cs ++ [e]).map Chunk.value ∧
      img.Trailer.elems = g := by
  obtain ⟨k, hk, hlt⟩ := fuel_enough cs (enc e ++ g)
  have hloop : parseLoop w ((Signature ++ (encs cs ++ (enc e ++ g))).length + 1)
      ⟨encs cs ++ (enc e ++ g), sp⟩ []
      = .ret (.ok (views cs (enc e ++ g ++ sp) ++ [e.view (PutUint32 e.Crc ++ (g ++ sp))],
          ⟨g, sp⟩)) := by
    rw [parseLoop_chunks w _ cs _ sp [] hcs hlt, hk, parseLoop_step w k e g sp _ he.1 he.2.1,
      if_pos he.2.2, List.nil_append]
  refine ⟨⟨views cs (enc e ++ g ++ sp) ++ [e.view (PutUint32 e.Crc ++ (g ++ sp))], ⟨g, sp⟩⟩,
    Parse_of_loop w _ _ ⟨g, sp⟩ ?_ ?_, ?_, rfl⟩
  · simp only [List.append_assoc]
    exact take_Signature _
  · simp only [List.append_assoc, Slice.len, drop_Signature] at hloop ⊢
    exact hloop
  · simp only [List.map_append, views_value, List.map_cons, List.map_nil, value_view]

/-- End of input without IEND, where the bounds check does not wrap: for
well-formed chunks `cs` in range, none of type "IEND", `Parse` of the signature
and their encodings returns the chunks `cs` with their values and an empty
trailer. -/
theorem Parse_end_of_input (w : Nat) (cs : List Chunk) (sp : List Byte)
    (hcs : ∀ c ∈ cs, c.WellFormed ∧ InRange w c.Length ∧ c.tag ≠ IEND) :
    ∃ img, Parse w ⟨Signature ++ encs cs, sp⟩ = .ret (.ok img) ∧
      img.ChunkList.map Chunk.value = cs.map Chunk.value ∧
      img.Trailer.elems = [] := by
  obtain ⟨k, hk, hlt⟩ := fuel_enough cs []
  have hloop : parseLoop w ((Signature ++ (encs cs ++ [])).length + 1)
      ⟨encs cs ++ [], sp⟩ [] = .ret (.ok (views cs ([] ++ sp), ⟨[], sp⟩)) := by
    rw [parseLoop_chunks w _ cs _ sp [] hcs hlt, hk, parseLoop_nil, List.nil_append]
  rw [List.append_nil] at hloop
  refine ⟨⟨views cs ([] ++ sp), ⟨[], sp⟩⟩,
    Parse_of_loop w _ _ ⟨[], sp⟩ (take_Signature _) ?_, ?_, rfl⟩
  · simp only [Slice.len, drop_Signature]
    exact hloop
  · simp only [views_value]

/-- An incomplete length field, where the bounds check does not wrap: for
well-formed chunks `cs` in range, none of type "IEND", followed by one, two or
three bytes, `Parse` returns the error "Broken structure of chunk". -/
theorem Parse_incomplete_length (w : Nat) (cs : List Chunk) (extra sp : List Byte)
    (hcs : ∀ c ∈ cs, c.WellFormed ∧ InRange w c.Length ∧ c.tag ≠ IEND)
    (h1 : 1 ≤ extra.length) (h3 : extra.length ≤ 3) :
    Parse w ⟨Signature ++ encs cs ++ extra, sp⟩ = .ret (.error "Broken structure of chunk") := by
  obtain ⟨k, hk, hlt⟩ := fuel_enough cs extra
  have hloop : parseLoop w ((Signature ++ (encs cs ++ extra)).length + 1)
      ⟨encs cs ++ extra, sp⟩ [] = .ret (.error "Broken structure of chunk") := by
    rw [parseLoop_chunks w _ cs _ sp [] hcs hlt, hk, parseLoop_short w k extra sp _ h1 h3]
  refine Parse_of_loop_error w _ _ ?_ ?_
  · simp only [List.append_assoc]
    exact take_Signature _
  · simp only [List.append_assoc, Slice.len, drop_Signature]
    exact hloop

/-! ## A declared length of 0xFFFFFFFC with a 64-bit `int` -/

theorem take_four (a b c d : Byte) (x : List Byte) :
    List.take 4 ([a, b, c, d] ++ x) = [a, b, c, d] := rfl

theorem drop_four (a b c d : Byte) (x : List Byte) :
    List.drop 4 ([a, b, c, d] ++ x) = x := rfl

theorem Uint32_FFFFFFFC : Uint32 [0xff, 0xff, 0xff, 0xfc] = .ret 0xFFFFFFFC := by decide

theorem PutUint32_FFFFFFFC : PutUint32 0xFFFFFFFC = [0xff, 0xff, 0xff, 0xfc] := by decide

/-- One iteration of the loop, 64-bit `int`, on the length field FF FF FF FC
followed by at least four bytes `t`: `length+8` wraps to 4 and `length+4` to 0,
so `Data` is empty, `t` is read as the crc and, through the capacity of `Data`,
as the type tag. -/
theorem parseLoop_wrap (fuel : Nat) (t rest sp : List Byte) (acc : List Chunk) (v : Nat)
    (ht : t.length = 4) (hv : Uint32 t = .ret v) :
    parseLoop 64 (fuel + 1) ⟨[0xff, 0xff, 0xff, 0xfc] ++ (t ++ rest), sp⟩ acc =
      if t = IEND then
        .ret (.ok (acc ++ [⟨0xFFFFFFFC, ⟨[], t ++ (rest ++ sp)⟩, v⟩], ⟨rest, sp⟩))
      else parseLoop 64 fuel ⟨rest, sp⟩ (acc ++ [⟨0xFFFFFFFC, ⟨[], t ++ (rest ++ sp)⟩, v⟩]) := by
  have e8 : (0xFFFFFFFC + 8) % 2 ^ 32 = 4 := by norm_num
  have e4 : (0xFFFFFFFC + 4) % 2 ^ 32 = 0 := by norm_num
  have htake : List.take 4 (t ++ rest) = t := by rw [← ht, List.take_left]
  have hdrop : List.drop 4 (t ++ rest) = rest := by rw [← ht, List.drop_left]
  have hcheck : ¬ (toInt 64 0xFFFFFFFC < 0 ∨ toInt 64 ((0xFFFFFFFC + 8) % 2 ^ 32) < 0
      ∨ ((Buffer.Len ⟨t ++ rest, sp⟩ : Nat) : Int) < toInt 64 ((0xFFFFFFFC + 8) % 2 ^ 32)) := by
    rw [e8, toInt_64 _ (by norm_num), toInt_64 _ (by norm_num)]
    simp only [Buffer.Len, List.length_append, ht]
    omega
  rw [parseLoop, Next_four]
  dsimp only
  rw [take_four, drop_four]
  simp only [Slice.len, List.length_cons, List.length_nil]
  rw [if_neg (by decide), if_neg (by decide), Uint32_FFFFFFFC]
  dsimp only
  rw [if_neg hcheck, e4, toInt_64 _ (by norm_num), Next_natCast]
  dsimp only
  rw [List.take_zero, List.drop_zero, Next_four]
  dsimp only
  rw [htake, hdrop, hv]
  dsimp only
  have hT : Chunk.Type ⟨0xFFFFFFFC, ⟨[], t ++ rest ++ sp⟩, v⟩ = .ret t := by
    simp only [Chunk.Type, Slice.cap, List.length_nil, List.length_append, ht, List.nil_append,
      List.append_assoc]
    rw [if_pos (by omega), ← ht, List.take_left]
  rw [hT]
  simp only [List.append_assoc]

theorem Uint32_IEND : Uint32 IEND = .ret 0x49454E44 := by decide

theorem Uint32_IDAT : Uint32 IDAT = .ret 0x49444154 := by decide

theorem length_succ (x : List Byte) : ∃ k, (Signature ++ x).length = k + 1 :=
  ⟨7 + x.length, by rw [List.length_append]; show 8 + _ = _; omega⟩

/-- With a 64-bit `int`: the signature, the length field FF FF FF FC and the
bytes "IEND" parse to one chunk with empty `Data`, whatever follows; all that
follows is the trailer. -/
theorem Parse_64_wrap_IEND (rest sp : List Byte) :
    Parse 64 ⟨Signature ++ ([0xff, 0xff, 0xff, 0xfc] ++ (IEND ++ rest)), sp⟩
      = .ret (.ok ⟨[⟨0xFFFFFFFC, ⟨[], IEND ++ (rest ++ sp)⟩, 0x49454E44⟩], ⟨rest, sp⟩⟩) := by
  refine Parse_of_loop 64 _ _ ⟨rest, sp⟩ (take_Signature _) ?_
  simp only [drop_Signature]
  rw [parseLoop_wrap _ IEND rest sp [] _ rfl Uint32_IEND, if_pos rfl, List.nil_append]

theorem iendChunk_enc : enc iendChunk = iendBytes := by decide

/-- With a 64-bit `int`: after the length field FF FF FF FC and a tag `t` other
than "IEND", the loop goes on inside what was meant as payload; when that
begins with the bytes of an IEND chunk, `Parse` stops there. -/
theorem Parse_64_wrap_then_IEND (t rest sp : List Byte) (v : Nat) (ht : t.length = 4)
    (hv : Uint32 t = .ret v) (hne : t ≠ IEND) :
    Parse 64 ⟨Signature ++ ([0xff, 0xff, 0xff, 0xfc] ++ (t ++ (iendBytes ++ rest))), sp⟩
      = .ret (.ok ⟨[⟨0xFFFFFFFC, ⟨[], t ++ (iendBytes ++ rest ++ sp)⟩, v⟩,
                    iendChunk.view (PutUint32 iendChunk.Crc ++ (rest ++ sp))], ⟨rest, sp⟩⟩) := by
  refine Parse_of_loop 64 _ _ ⟨rest, sp⟩ (take_Signature _) ?_
  simp only [drop_Signature, Slice.len]
  obtain ⟨k, hk⟩ := length_succ ([0xff, 0xff, 0xff, 0xfc] ++ (t ++ (iendBytes ++ rest)))
  rw [parseLoop_wrap _ t _ sp [] v ht hv, if_neg hne, hk, ← iendChunk_enc,
    parseLoop_step 64 k iendChunk rest sp _ (by decide) (Or.inr ⟨rfl, by decide⟩),
    if_pos (by decide)]
  simp only [List.nil_append, List.append_assoc, List.singleton_append]

/-! ## Files with a chunk of four gibibytes, 64-bit `int` -/

theorem hugeChunk_WellFormed (tag payload : List Byte) (ht : tag.length = 4)
    (hp : payload.length = 0xFFFFFFFC) :
    (hugeChunk tag payload).WellFormed ∧ (hugeChunk tag payload).tag = tag ∧
      (hugeChunk tag payload).Data.elems.length = 2 ^ 32 := by
  refine ⟨⟨?_, ?_, ?_⟩, ?_, ?_⟩
  · simp only [hugeChunk, bytesOf, Slice.len, List.length_append, ht, hp]
  · simp only [hugeChunk]
    norm_num
  · simp only [hugeChunk]
    norm_num
  · simp only [Chunk.tag, hugeChunk, bytesOf]
    rw [← ht, List.take_left]
  · simp only [hugeChunk, bytesOf, List.length_append, ht, hp]
    norm_num

/-- With a 64-bit `int`: the file of one chunk "IEND" with declared length
0xFFFFFFFC, whatever its payload `p`, parses to a chunk with empty `Data`, and
the payload and the crc field become the trailer. -/
theorem Parse_64_hugeChunk_IEND (p : List Byte) :
    Parse 64 (bytesOf (Signature ++ encs [] ++ enc (hugeChunk IEND p) ++ []))
      = .ret (.ok ⟨[⟨0xFFFFFFFC, ⟨[], IEND ++ (p ++ PutUint32 0)⟩, 0x49454E44⟩],
                   ⟨p ++ PutUint32 0, []⟩⟩) := by
  have hin : bytesOf (Signature ++ encs [] ++ enc (hugeChunk IEND p) ++ [])
      = ⟨Signature ++ ([0xff, 0xff, 0xff, 0xfc] ++ (IEND ++ (p ++ PutUint32 0))), []⟩ := by
    simp only [bytesOf, encs_nil, enc, hugeChunk, PutUint32_FFFFFFFC, List.append_nil,
      List.append_assoc]
  rw [hin, Parse_64_wrap_IEND]
  simp only [List.append_nil]

/-- With a 64-bit `int`: the file of one chunk "IDAT" with declared length
0xFFFFFFFC whose payload begins with the bytes of an IEND chunk, followed by any
bytes `x`: `Parse` returns two chunks and a trailer. -/
theorem Parse_64_hugeChunk_IDAT (q x : List Byte) :
    Parse 64 (bytesOf (Signature ++ encs [hugeChunk IDAT (iendBytes ++ q)] ++ x))
      = .ret (.ok ⟨[⟨0xFFFFFFFC,
                     ⟨[], IDAT ++ (iendBytes ++ (q ++ (PutUint32 0 ++ x)))⟩, 0x49444154⟩,
                    iendChunk.view (PutUint32 iendChunk.Crc ++ (q ++ (PutUint32 0 ++ x)))],
                   ⟨q ++ (PutUint32 0 ++ x), []⟩⟩) := by
  have hin : bytesOf (Signature ++ encs [hugeChunk IDAT (iendBytes ++ q)] ++ x)
      = ⟨Signature ++ ([0xff, 0xff, 0xff, 0xfc] ++ (IDAT ++ (iendBytes
          ++ (q ++ (PutUint32 0 ++ x))))), []⟩ := by
    simp only [bytesOf, encs_cons, encs_nil, enc, hugeChunk, PutUint32_FFFFFFFC,
      List.append_nil, List.append_assoc]
  rw [hin, Parse_64_wrap_then_IEND IDAT _ [] _ rfl Uint32_IDAT (by decide)]
  simp only [List.append_nil, List.append_assoc]

theorem hugeChunk_IDAT_WellFormed (q : List Byte) (hq : q.length = 0xFFFFFFF0) :
    (hugeChunk IDAT (iendBytes ++ q)).WellFormed ∧ (hugeChunk IDAT (iendBytes ++ q)).tag ≠ IEND := by
  have h := hugeChunk_WellFormed IDAT (iendBytes ++ q) rfl (by
    rw [List.length_append, hq]
    rfl)
  refine ⟨h.1, ?_⟩
  rw [h.2.1]
  decide


theorem Parse_64_hugeChunk_IDAT_eof (q : List Byte) :
    Parse 64 (bytesOf (Signature ++ encs [hugeChunk IDAT (iendBytes ++ q)]))
      = .ret (.ok ⟨[⟨0xFFFFFFFC,
                     ⟨[], IDAT ++ (iendBytes ++ (q ++ PutUint32 0))⟩, 0x49444154⟩,
                    iendChunk.view (PutUint32 iendChunk.Crc ++ (q ++ PutUint32 0))],
                   ⟨q ++ PutUint32 0, []⟩⟩) := by
  have h := Parse_64_hugeChunk_IDAT q []
  simp only [List.append_nil] at h
  exact h

/-- C12 at a failing input, 64-bit `int`: the signature followed by the encoding
of one chunk of type "IEND" with declared length 0xFFFFFFFC and that many
payload bytes, all zero (so `len(Data) = Length + 4`), and no further bytes.
`Parse` returns a chunk with the crc 0x49454E44 and an empty `Data` in place of
the 2^32 bytes, and the payload and crc field as the trailer in place of an
empty one. -/
theorem Parse_64_huge_IEND :
    ((hugeChunk IEND (List.replicate 0xFFFFFFFC 0)).WellFormed ∧
      (hugeChunk IEND (List.replicate 0xFFFFFFFC 0)).tag = IEND ∧
      (hugeChunk IEND (List.replicate 0xFFFFFFFC 0)).Data.elems.length = 2 ^ 32) ∧
    Parse 64 (bytesOf (Signature ++ encs [] ++ enc (hugeChunk IEND (List.replicate 0xFFFFFFFC 0))
        ++ []))
      = .ret (.ok ⟨[⟨0xFFFFFFFC,
                     ⟨[], IEND ++ (List.replicate 0xFFFFFFFC 0 ++ PutUint32 0)⟩, 0x49454E44⟩],
                   ⟨List.replicate 0xFFFFFFFC 0 ++ PutUint32 0, []⟩⟩) :=
  ⟨hugeChunk_WellFormed IEND (List.replicate 0xFFFFFFFC 0) rfl (List.length_replicate _ _),
    Parse_64_hugeChunk_IEND (List.replicate 0xFFFFFFFC 0)⟩

/-- C13 at a failing input, 64-bit `int`: the signature followed by the encoding
of one chunk of type "IDAT" with declared length 0xFFFFFFFC and that many
payload bytes, the twelve bytes of an IEND chunk and then zeros. `Parse`
returns two chunks, the first with an empty `Data`, and a trailer that is not
empty, in place of the one chunk and an empty trailer. -/
theorem Parse_64_huge_IDAT :
    ((hugeChunk IDAT (iendBytes ++ List.replicate 0xFFFFFFF0 0)).WellFormed ∧
      (hugeChunk IDAT (iendBytes ++ List.replicate 0xFFFFFFF0 0)).tag ≠ IEND) ∧
    Parse 64 (bytesOf (Signature ++ encs [hugeChunk IDAT (iendBytes ++ List.replicate 0xFFFFFFF0 0)]))
      = .ret (.ok ⟨[⟨0xFFFFFFFC,
                     ⟨[], IDAT ++ (iendBytes ++ (List.replicate 0xFFFFFFF0 0
                        ++ PutUint32 0))⟩, 0x49444154⟩,
                    iendChunk.view (PutUint32 iendChunk.Crc
                      ++ (List.replicate 0xFFFFFFF0 0 ++ PutUint32 0))],
                   ⟨List.replicate 0xFFFFFFF0 0 ++ PutUint32 0, []⟩⟩) :=
  ⟨hugeChunk_IDAT_WellFormed (List.replicate 0xFFFFFFF0 0) (List.length_replicate _ _),
    Parse_64_hugeChunk_IDAT_eof (List.replicate 0xFFFFFFF0 0)⟩

/-- C17 at a failing input, 64-bit `int`: the signature, the encoding of one
complete chunk of type "IDAT" with declared length 0xFFFFFFFC (its payload is
the twelve bytes of an IEND chunk and then zeros), and one further byte.
`Parse` returns a container in place of the error "Broken structure of
chunk". -/
theorem Parse_64_extra_byte_accepted :
    ((hugeChunk IDAT (iendBytes ++ List.replicate 0xFFFFFFF0 0)).WellFormed ∧
      (hugeChunk IDAT (iendBytes ++ List.replicate 0xFFFFFFF0 0)).tag ≠ IEND) ∧
    Parse 64 (bytesOf (Signature ++ encs [hugeChunk IDAT (iendBytes ++ List.replicate 0xFFFFFFF0 0)]
        ++ [0x00]))
      = .ret (.ok ⟨[⟨0xFFFFFFFC,
                     ⟨[], IDAT ++ (iendBytes ++ (List.replicate 0xFFFFFFF0 0
                        ++ (PutUint32 0 ++ [0x00])))⟩, 0x49444154⟩,
                    iendChunk.view (PutUint32 iendChunk.Crc
                      ++ (List.replicate 0xFFFFFFF0 0 ++ (PutUint32 0 ++ [0x00])))],
                   ⟨List.replicate 0xFFFFFFF0 0 ++ (PutUint32 0 ++ [0x00]), []⟩⟩) :=
  ⟨hugeChunk_IDAT_WellFormed (List.replicate 0xFFFFFFF0 0) (List.length_replicate _ _),
    Parse_64_hugeChunk_IDAT (List.replicate 0xFFFFFFF0 0) [0x00]⟩

/-! ## The chunk invariant -/

/-- One iteration of the loop that ends well appended nothing, or a chunk that
went through the bounds check. -/
theorem parseLoop_succ_len (w fuel : Nat) (buf buf' : Buffer) (acc cl : List Chunk)
    (h : parseLoop w (fuel + 1) buf acc = .ret (.ok (cl, buf'))) :
    cl = acc ∨
    ∃ chunk buf1, Parsed w chunk ∧
      (cl = acc ++ [chunk] ∨ parseLoop w fuel buf1 (acc ++ [chunk]) = .ret (.ok (cl, buf'))) := by
  obtain ⟨unread, spare⟩ := buf
  rw [parseLoop, Next_four] at h
  simp only [Slice.len] at h
  by_cases h0 : (List.take 4 unread).length = 0
  · left
    simp only [h0, if_true, Go.ret.injEq, Except.ok.injEq, Prod.mk.injEq] at h
    exact h.1.symm
  · right
    rw [if_neg h0] at h
    by_cases h4 : (List.take 4 unread).length = 4
    · rw [if_neg (by simpa using h4)] at h
      obtain ⟨length, hlen⟩ := Uint32_of_length (List.take 4 unread) (by omega)
      rw [hlen] at h
      dsimp only at h
      split at h
      · cases h
      · rename_i hcheck
        split at h
        · cases h
        · cases h
        · rename_i data buf1 hnext
          split at h
          · cases h
          · cases h
          · rename_i c buf2 hnext4
            rw [Next_four] at hnext4
            split at h
            · cases h
            · cases h
            · rename_i crc hcrc
              by_cases hneg : toInt w ((length + 4) % 2 ^ 32) < 0
              · rw [Next_neg _ _ hneg] at hnext
                cases hnext
              · rw [Next_of_nonneg _ _ (by omega)] at hnext
                simp only [Go.ret.injEq, Prod.mk.injEq] at hnext hnext4
                obtain ⟨hdata, hbuf1⟩ := hnext
                obtain ⟨hc, hbuf2⟩ := hnext4
                subst hdata hbuf1
                simp only at hc hbuf2
                subst hc hbuf2
                simp only at hcrc h
                have hc4 : 4 ≤ (List.take 4 (List.drop (toInt w ((length + 4) % 2 ^ 32)).toNat
                    (List.drop 4 unread))).length := by
                  by_contra hne
                  rw [Uint32_short _ (by omega)] at hcrc
                  cases hcrc
                have hP : Parsed w ⟨length, ⟨List.take (toInt w ((length + 4) % 2 ^ 32)).toNat
                    (List.drop 4 unread), List.drop (toInt w ((length + 4) % 2 ^ 32)).toNat
                    (List.drop 4 unread) ++ spare⟩, crc⟩ := by
                  refine ⟨(List.drop 4 unread).length, Uint32_lt _ _ hlen, hcheck,
                    Int.not_lt.mp hneg, ?_, ?_⟩
                  · simp only [Slice.len, List.length_take]
                  · simp only [List.length_take, List.length_drop] at hc4
                    simp only [Slice.len, List.length_take, List.length_drop]
                    omega
                refine ⟨_, ⟨List.drop 4 (List.drop (toInt w ((length + 4) % 2 ^ 32)).toNat
                  (List.drop 4 unread)), spare⟩, hP, ?_⟩
                split at h
                · cases h
                · cases h
                · rename_i t ht
                  by_cases hend : t = IEND
                  · left
                    simp only [hend, if_true, Go.ret.injEq, Except.ok.injEq,
                      Prod.mk.injEq] at h
                    exact h.1.symm
                  · right
                    rw [if_neg hend] at h
                    exact h
    · exfalso
      rw [if_pos (by simpa using h4)] at h
      cases h

theorem parseLoop_Parsed (w fuel : Nat) (buf buf' : Buffer) (acc cl : List Chunk)
    (h : parseLoop w fuel buf acc = .ret (.ok (cl, buf'))) :
    ∃ new, cl = acc ++ new ∧ ∀ c ∈ new, Parsed w c := by
  induction fuel generalizing buf acc with
  | zero => simp [parseLoop] at h
  | succ fuel ih =>
    rcases parseLoop_succ_len w fuel buf buf' acc cl h with
      hcl | ⟨chunk, buf1, hP, hcl | hrec⟩
    · exact ⟨[], by simp [hcl], by simp⟩
    · refine ⟨[chunk], hcl, ?_⟩
      intro c hc
      rw [List.mem_singleton] at hc
      exact hc ▸ hP
    · obtain ⟨new, hcl, hall⟩ := ih _ _ hrec
      refine ⟨chunk :: new, by simp [hcl], ?_⟩
      intro c hc
      rcases List.mem_cons.mp hc with rfl | hc
      · exact hP
      · exact hall c hc

/-- Every chunk of a container that `Parse` returns went through the bounds
check. -/
theorem Parse_Parsed (w : Nat) (b : Slice) (img : Image) (h : Parse w b = .ret (.ok img)) :
    ∀ c ∈ img.ChunkList, Parsed w c := by
  rw [Parse_eq] at h
  split at h
  · cases h
  · split at h
    · cases h
    · cases h
    · cases h
    · rename_i cl buf hloop
      rw [Next_natCast] at h
      simp only [Go.ret.injEq, Except.ok.injEq] at h
      subst h
      obtain ⟨new, hcl, hall⟩ := parseLoop_Parsed _ _ _ _ _ _ hloop
      rw [List.nil_append] at hcl
      subst hcl
      exact hall

theorem Parsed_32 (c : Chunk) (h : Parsed 32 c) : c.Data.len = c.Length + 4 := by
  obtain ⟨len, hl, hcheck, _, hdata, _⟩ := h
  obtain ⟨hle, hto⟩ := check_32 c.Length len hl hcheck
  rw [hto] at hdata
  rw [hdata, Int.toNat_ofNat]
  omega

theorem Parsed_64 (c : Chunk) (h : Parsed 64 c) :
    c.Data.len = (c.Length + 4) % 2 ^ 32 ∧ c.Length < 2 ^ 32 := by
  obtain ⟨len, hl, _, _, hdata, hcrc⟩ := h
  have h4 : (c.Length + 4) % 2 ^ 32 < 2 ^ 32 := Nat.mod_lt _ (by norm_num)
  rw [toInt_64 _ h4, Int.toNat_ofNat] at hdata
  refine ⟨?_, hl⟩
  omega

/-- Where `int` has 32 bits, every chunk of a parsed container satisfies
`len(Data) = Length + 4`. -/
theorem Parse_32_invariant (b : Slice) (img : Image) (h : Parse 32 b = .ret (.ok img)) :
    ∀ c ∈ img.ChunkList, c.Data.len = c.Length + 4 :=
  fun c hc => Parsed_32 c (Parse_Parsed 32 b img h c hc)

/-- Where `int` has 64 bits, every chunk of a parsed container satisfies
`len(Data) = Length + 4` in `uint32` arithmetic, so as natural numbers when the
declared length is below 0xFFFFFFFC. -/
theorem Parse_64_invariant (b : Slice) (img : Image) (h : Parse 64 b = .ret (.ok img)) :
    ∀ c ∈ img.ChunkList, c.Data.len = (c.Length + 4) % 2 ^ 32 ∧
      (c.Length < 0xFFFFFFFC → c.Data.len = c.Length + 4) := by
  intro c hc
  obtain ⟨h1, _⟩ := Parsed_64 c (Parse_Parsed 64 b img h c hc)
  refine ⟨h1, fun hlt => ?_⟩
  rw [h1]
  omega

theorem GenerateChunk_invariant (phys : PhysChunk) :
    (GenerateChunk phys).Data.len = (GenerateChunk phys).Length + 4 := rfl

/-- `SetPhysChunk` keeps the chunk invariant: the chunks afterwards are chunks
from before or the generated one. -/
theorem SetPhysChunk_invariant (img img' : Image) (phys : PhysChunk) (e : Option String)
    (h : SetPhysChunk img phys = .ret (img', e))
    (hinv : ∀ c ∈ img.ChunkList, c.Data.len = c.Length + 4) :
    ∀ c ∈ img'.ChunkList, c.Data.len = c.Length + 4 := by
  rcases SetPhysChunk_ret _ _ _ _ h with
    ⟨_, pre, x, post, hl, _, _, himg⟩ | ⟨_, pre, x, post, hl, _, _, _, himg⟩ | ⟨_, himg, _, _⟩
  · rw [himg]
    rw [hl] at hinv
    intro c hc
    simp only [List.mem_append, List.mem_cons] at hc hinv
    rcases hc with hc | rfl | hc
    · exact hinv c (Or.inl hc)
    · exact GenerateChunk_invariant phys
    · exact hinv c (Or.inr (Or.inr hc))
  · rw [himg]
    rw [hl] at hinv
    intro c hc
    simp only [List.mem_append, List.mem_cons] at hc hinv
    rcases hc with hc | rfl | rfl | hc
    · exact hinv c (Or.inl hc)
    · exact GenerateChunk_invariant phys
    · exact hinv c (Or.inr (Or.inl rfl))
    · exact hinv c (Or.inr (Or.inr hc))
  · rw [himg]
    exact hinv

/-- `SetPhysChunk` keeps the type tags: `Type()` returns on every chunk
afterwards when it did before. -/
theorem SetPhysChunk_Typed (img img' : Image) (phys : PhysChunk) (e : Option String)
    (h : SetPhysChunk img phys = .ret (img', e)) (hty : Typed img.ChunkList) :
    Typed img'.ChunkList := by
  rcases SetPhysChunk_ret _ _ _ _ h with
    ⟨_, pre, x, post, hl, _, _, himg⟩ | ⟨_, pre, x, post, hl, _, _, _, himg⟩ | ⟨_, himg, _, _⟩
  · rw [himg]
    rw [hl] at hty
    intro c hc
    simp only [List.mem_append, List.mem_cons] at hc
    rcases hc with hc | rfl | hc
    · exact hty c (by simp [hc])
    · exact ⟨pHYs, Type_GenerateChunk phys⟩
    · exact hty c (by simp [hc])
  · rw [himg]
    rw [hl] at hty
    intro c hc
    simp only [List.mem_append, List.mem_cons] at hc
    rcases hc with hc | rfl | rfl | hc
    · exact hty c (by simp [hc])
    · exact ⟨pHYs, Type_GenerateChunk phys⟩
    · exact hty c (by simp)
    · exact hty c (by simp [hc])
  · rw [himg]
    exact hty

/-- C16 at a failing input, 64-bit `int`: a file whose IHDR chunk is followed by
the length field FF FF FF FC and the bytes "IEND". `Parse` succeeds, and its
second chunk has `Length` 0xFFFFFFFC and a `Data` of no bytes: `len(Data)` is
not `Length + 4`, and `Data` holds no type tag. With a 32-bit `int` the same
input gets the error. -/
theorem Parse_64_breaks_invariant :
    Parse 64 sampleWrapPNG = .ret (.ok (parsed 64 sampleWrapPNG)) ∧
    (parsed 64 sampleWrapPNG).ChunkList.map Chunk.value
      = [ihdrChunk.value, (0xFFFFFFFC, [], 0x49454E44)] ∧
    (∃ c ∈ (parsed 64 sampleWrapPNG).ChunkList, c.Data.len ≠ c.Length + 4 ∧ c.Data.len < 4) ∧
    Parse 32 sampleWrapPNG = .ret (.error "Broken structure of chunk") := by
  decide

/-! ## The scenarios of the spec on small files -/

theorem Parse_stops_at_IEND_witness :
    ∃ img, Parse 64 ⟨Signature ++ encs [ihdrChunk, badCrcChunk] ++ enc iendChunk ++ idatBytes, []⟩
        = .ret (.ok img) ∧
      img.ChunkList.map Chunk.value = ([ihdrChunk, badCrcChunk] ++ [iendChunk]).map Chunk.value ∧
      img.Trailer.elems = idatBytes :=
  Parse_stops_at_IEND 64 [ihdrChunk, badCrcChunk] iendChunk idatBytes [] (by decide) (by decide)

theorem Parse_end_of_input_witness :
    (∃ img, Parse 64 ⟨Signature ++ encs [ihdrChunk, badCrcChunk], []⟩ = .ret (.ok img) ∧
      img.ChunkList.map Chunk.value = [ihdrChunk, badCrcChunk].map Chunk.value ∧
      img.Trailer.elems = []) ∧
    Parse 64 (bytesOf Signature) = .ret (.ok ⟨[], ⟨[], []⟩⟩) ∧
    Parse 32 (bytesOf Signature) = .ret (.ok ⟨[], ⟨[], []⟩⟩) :=
  ⟨Parse_end_of_input 64 [ihdrChunk, badCrcChunk] [] (by decide), by decide, by decide⟩

theorem Parse_incomplete_length_witness :
    Parse 64 ⟨Signature ++ encs [ihdrChunk, badCrcChunk] ++ [0x00, 0x00, 0x00], []⟩
      = .ret (.error "Broken structure of chunk") :=
  Parse_incomplete_length 64 [ihdrChunk, badCrcChunk] [0x00, 0x00, 0x00] [] (by decide)
    (by decide) (by decide)

theorem Parse_invariant_witness :
    (∀ c ∈ (parsed 32 samplePNG).ChunkList, c.Data.len = c.Length + 4) ∧
    (∀ c ∈ (parsed 64 samplePNG).ChunkList, c.Data.len = (c.Length + 4) % 2 ^ 32 ∧
      (c.Length < 0xFFFFFFFC → c.Data.len = c.Length + 4)) :=
  ⟨Parse_32_invariant samplePNG (parsed 32 samplePNG) (by decide),
    Parse_64_invariant samplePNG (parsed 64 samplePNG) (by decide)⟩

end PngTweak
